import Mathlib

/-!
DFTAtom: shell filling (`AufbauPrinciple.h`) and the Numerov solver (`Numerov.h`).

A shallow embedding of the two headers of the repository, followed by the
properties established about them.

* C++ `int` values are embedded as `Int`.  In `GetSubshells` every intermediate
  value lies between `min Z 0 - 1` and `max Z 18`, so no machine overflow can occur
  and the unbounded integers agree with the machine ones.
* C++ `double` values are embedded in an arbitrary linearly ordered field with a
  floor function (exact arithmetic); `ℚ` is used to evaluate concrete runs.
* `std::vector` indexing is embedded with explicit bounds checks: an access
  outside the vector, which is undefined behaviour in the source, makes the
  embedded operation return `none`.
* The `unsigned int` step count of `SolveSchrodingerSolutionInZero` is embedded as a
  natural number with its conversions modulo `2 ^ 32`.
* The exponential grid, whose formulas use `exp`, `log` and `sqrt`, is embedded over
  the real numbers.
-/

namespace DFT

/-! Embedding of `AufbauPrinciple.h`. -/

/-- Record `Subshell` of the source: `m_N`, `m_L`, `m_nrElectrons` and the energy `E`,
which the constructor sets to `0`. -/
structure Subshell where
  m_N : Int
  m_L : Int
  m_nrElectrons : Int
  E : Rat
  deriving DecidableEq, Repr

/-- Constructor `Subshell(N, L, nrElectrons)`: the energy starts at `0`. -/
def Subshell.new (N L nrElectrons : Int) : Subshell :=
  { m_N := N, m_L := L, m_nrElectrons := nrElectrons, E := 0 }

namespace AufbauPrinciple

/-- Line 41: the initial value `2 * (2 * L + 1)` of `nrElectrons`. -/
def baseCapacity (L : Int) : Int := 2 * (2 * L + 1)

/-- Lines 44-61: the transition-metal adjustment of `nrElectrons`
(the value `nr` is the one set on line 41). -/
def transitionAdjust (Z N L nr : Int) : Int :=
  if (24 = Z ∨ 29 = Z ∨ 41 = Z ∨ 42 = Z ∨ 44 = Z ∨ 45 = Z ∨ 47 = Z ∨ 78 = Z ∨ 79 = Z)
      ∧ 0 = L then
    if Z ≤ 29 then
      if 3 = N then nr - 1 else nr
    else if Z ≤ 47 then
      if 4 = N then nr - 1 else nr
    else
      if 5 = N then nr - 1 else nr
  else if 46 = Z ∧ 4 = N ∧ 0 = L then
    nr - 2
  else nr

/-- Lines 63-64: `nrElectrons` is limited to the electrons still to be placed. -/
def clampRemaining (Z electronCount nr : Int) : Int :=
  if Z - electronCount < nr then Z - electronCount else nr

/-- Lines 67-82: the lanthanide, actinide and Lr adjustments of `nrElectrons`. -/
def fAdjust (Z N L nr : Int) : Int :=
  if 3 = L then
    if (57 = Z ∨ 58 = Z ∨ 64 = Z) ∧ 3 = N then nr - 1
    else if 4 = N then
      if 89 = Z ∨ 90 = Z then 0
      else if 91 = Z ∨ 92 = Z ∨ 93 = Z ∨ 96 = Z then nr - 1
      else nr
    else nr
  else if 103 = Z ∧ 5 = N ∧ 2 = L then 0
  else nr

/-- Lines 41-82: the value of `nrElectrons` when line 84 is reached. -/
def nrElectronsFinal (Z N L electronCount : Int) : Int :=
  fAdjust Z N L (clampRemaining Z electronCount (transitionAdjust Z N L (baseCapacity L)))

/-- The variables of `GetSubshells` that live across loop iterations. -/
structure LoopState where
  levels : List Subshell
  electronCount : Int
  exitLoops : Bool
  deriving DecidableEq, Repr

/-- Lines 84-88: the subshell is appended and counted when `nrElectrons > 0`. -/
def emit (N L nr : Int) (s : LoopState) : LoopState :=
  if nr > 0 then
    { levels := s.levels ++ [Subshell.new N L nr],
      electronCount := s.electronCount + nr,
      exitLoops := s.exitLoops }
  else s

/-- Lines 35-96: the loop `for (int N = ...; N <= NplusL; ++N)`, entered with the given
value of `N`.  The first argument bounds the number of iterations still allowed; the
second component of the result is `false` when that bound is used up before the
loop condition fails. -/
def innerLoop (Z NplusL : Int) : Nat → Int → LoopState → LoopState × Bool
  | 0, N, s => (s, decide (¬ N ≤ NplusL))
  | fuel + 1, N, s =>
    if N ≤ NplusL then
      let L := NplusL - N
      if L ≤ N then
        let s1 := emit N L (nrElectronsFinal Z N L s.electronCount) s
        if s1.electronCount = Z then
          ({ s1 with exitLoops := true }, true)
        else innerLoop Z NplusL fuel (N + 1) s1
      else innerLoop Z NplusL fuel (N + 1) s
    else (s, true)

/-- Lines 34-96: the loop `for (int NplusL = ...; !exitLoops && NplusL < 10; ++NplusL)`,
entered with the given value of `NplusL`; the fuel convention is that of `innerLoop`. -/
def outerLoop (Z : Int) : Nat → Int → LoopState → LoopState × Bool
  | 0, NplusL, s => (s, decide (¬ (s.exitLoops = false ∧ NplusL < 10)))
  | fuel + 1, NplusL, s =>
    if s.exitLoops = false ∧ NplusL < 10 then
      let r := innerLoop Z NplusL (NplusL.toNat + 1) 0 s
      let r2 := outerLoop Z fuel (NplusL + 1) r.1
      (r2.1, r.2 && r2.2)
    else (s, true)

/-- The run of both loops from the initial state of lines 29-32. -/
def run (Z : Int) : LoopState × Bool :=
  outerLoop Z 10 0 { levels := [], electronCount := 0, exitLoops := false }

/-- Function `AufbauPrinciple::GetSubshells(Z)`: the vector `levels` that is returned. -/
def GetSubshells (Z : Int) : List Subshell := (run Z).1.levels

/-- The candidates that the loop `for N` of lines 35-39 visits from `N` on within the
group `NplusL` (those passing the test `L <= N` of line 39), each with its initial
`nrElectrons` of line 41. -/
def groupCandidates (NplusL : Int) : Nat → Int → List Subshell
  | 0, _ => []
  | fuel + 1, N =>
    if N ≤ NplusL then
      if NplusL - N ≤ N then
        Subshell.new N (NplusL - N) (baseCapacity (NplusL - N))
          :: groupCandidates NplusL fuel (N + 1)
      else groupCandidates NplusL fuel (N + 1)
    else []

/-- The candidates that the loop `for NplusL` of line 34 visits from `NplusL` on when it
is never left early. -/
def candidatesFrom : Nat → Int → List Subshell
  | 0, _ => []
  | fuel + 1, NplusL =>
    if NplusL < 10 then
      groupCandidates NplusL (NplusL.toNat + 1) 0 ++ candidatesFrom fuel (NplusL + 1)
    else []

/-- All candidates of `GetSubshells`, in the order in which the loops visit them. -/
def candidates : List Subshell := candidatesFrom 10 0

end AufbauPrinciple

/-- The `(m_N, m_L, m_nrElectrons)` triples of a sequence of subshells. -/
def occupations (levels : List Subshell) : List (Int × Int × Int) :=
  levels.map fun s => (s.m_N, s.m_L, s.m_nrElectrons)

/-- Sum of the electron counts of a sequence of subshells. -/
def totalElectrons (levels : List Subshell) : Int :=
  (levels.map fun s => s.m_nrElectrons).sum


/-- The pair `(m_N, m_L)` of a subshell. -/
def Subshell.nl (s : Subshell) : Int × Int := (s.m_N, s.m_L)

/-- The predicate kept by every emitted subshell: a count between `1` and
`2 * (2 * L + 1)`. -/
def countInRange (x : Subshell) : Prop :=
  1 ≤ x.m_nrElectrons ∧ x.m_nrElectrons ≤ AufbauPrinciple.baseCapacity x.m_L

/-- Number of electrons that a sequence of subshells gives to the pair `(N, L)`:
the counts of the entries with that pair added up, so `0` when there is none. -/
def occupationOf (levels : List Subshell) (N L : Int) : Int :=
  ((levels.filter fun s => decide (s.m_N = N ∧ s.m_L = L)).map fun s => s.m_nrElectrons).sum

/-! Embedding of `Numerov.h`. -/

/-- Checked read `v[i]` of a `std::vector`. -/
def vecGet {α : Type} (v : List α) (i : Int) : Option α :=
  if 0 ≤ i then v.get? i.toNat else none

/-- Checked write `v[i] = x` of a `std::vector`. -/
def vecSet {α : Type} (v : List α) (i : Int) (x : α) : Option (List α) :=
  if 0 ≤ i ∧ i < (v.length : Int) then some (v.set i.toNat x) else none

section NumerovDefs

variable {F : Type} [LinearOrderedField F] [FloorRing F]

/-- Conversion `static_cast<int>(x)` of a `double`: truncation toward zero. -/
def truncToInt (x : F) : Int := if 0 ≤ x then ⌊x⌋ else ⌈x⌉

/-- The members of the template parameter `NumerovFunction` that class `Numerov` calls:
`GetEffectivePotential(l, position, posIndex)`, `operator()(l, E, position, posIndex)`
(field `apply`), `GetBoundaryValueFar(position, E)`, `GetBoundaryValueZero(position, l)`,
`GetMaxRadiusIndex(E)` and `GetMaxRadius(E)`. -/
structure NumerovFunction (F : Type) where
  GetEffectivePotential : Nat → F → Int → F
  apply : Nat → F → F → Int → F
  GetBoundaryValueFar : F → F → F
  GetBoundaryValueZero : F → Int → F
  GetMaxRadiusIndex : F → Int
  GetMaxRadius : F → F

/-- Class template `Numerov`: the member `function` and the fields `h`, `h2`, `h2p12`. -/
structure Numerov (F : Type) where
  function : NumerovFunction F
  h : F
  h2 : F
  h2p12 : F

namespace Numerov

/-- Lines 390-393: `getU(w, funcVal)`. -/
def getU (self : Numerov F) (w funcVal : F) : F := w / (1 - self.h2p12 * funcVal)

/-- Lines 289-306 (the same text opens the other two solve operations): the fields
`h`, `h2`, `h2p12` are set and `startPoint`, `steps` are capped.  The result holds the
solver with its new fields, the new `startPoint` and the new `steps`. -/
def capRange (self : Numerov F) (startPoint E : F) (steps : Int) : Numerov F × F × Int :=
  if startPoint = (steps : F) then
    let startPoint1 : F :=
      ((min (truncToInt startPoint) (self.function.GetMaxRadiusIndex E) : Int) : F)
    ({ self with h := 1, h2 := 1, h2p12 := 1 / 12 }, startPoint1, truncToInt startPoint1)
  else
    let h := startPoint / (steps : F)
    let startPoint1 := min startPoint (self.function.GetMaxRadius E)
    ({ self with h := h, h2 := h * h, h2p12 := h * h / 12 }, startPoint1,
      truncToInt (startPoint1 / h))

/-- Lines 307-308: the loop `for (long int i = ...; i < highLimit; ++i) Psi[i] = 0`,
entered with the given `i`.  The first argument bounds the iterations still allowed;
the result is `none` when that bound is used up or an index is out of range. -/
def zeroFill (highLimit : Int) : Nat → Int → List F → Option (List F)
  | 0, i, Psi => if i < highLimit then none else some Psi
  | fuel + 1, i, Psi =>
    if i < highLimit then
      match vecSet Psi i 0 with
      | none => none
      | some Psi1 => zeroFill highLimit fuel (i + 1) Psi1
    else some Psi

/-- The local variables of `SolveSchrodingerMatchSolutionCompletely` that the loops
read or write (`position` is recomputed where it is used and `prevSol` is never read). -/
structure MatchState (F : Type) where
  Psi : List F
  solution : F
  funcVal : F
  wprev : F
  w : F
  matchPoint : Int

/-- Lines 330-348: the loop `for (int i = ...; i > 0; --i)` of the integration that
starts at the far end, entered with the given `i`; fuel and `none` as in `zeroFill`. -/
def inwardLoop (self : Numerov F) (l : Nat) (E : F) : Nat → Int → MatchState F →
    Option (MatchState F)
  | 0, i, s => if i > 0 then none else some s
  | fuel + 1, i, s =>
    if i > 0 then
      let wnext := 2 * s.w - s.wprev + self.h2 * s.solution * s.funcVal
      let position := self.h * (i : F)
      let funcVal := self.function.apply l E position i
      let solution := self.getU wnext funcVal
      match vecSet s.Psi i solution with
      | none => none
      | some Psi1 =>
        match vecGet Psi1 (i + 1) with
        | none => none
        | some next =>
          if solution < next ∨ |solution| > 10 ^ 50 then
            some { Psi := Psi1, solution := solution, funcVal := funcVal, wprev := s.w,
                   w := wnext, matchPoint := i }
          else
            inwardLoop self l E fuel (i - 1)
              { Psi := Psi1, solution := solution, funcVal := funcVal, wprev := s.w,
                w := wnext, matchPoint := s.matchPoint }
    else some s

/-- The test of line 343 read off a vector: the entry `j` is smaller than the entry
`j + 1`, or its magnitude exceeds `10 ^ 50`. -/
def breaksAt (Psi : List F) (j : Int) : Prop :=
  ∃ x y, vecGet Psi j = some x ∧ vecGet Psi (j + 1) = some y ∧ (x < y ∨ |x| > 10 ^ 50)

/-- The test of line 343 fails on the entries `j` and `j + 1` of a vector. -/
def continuesAt (Psi : List F) (j : Int) : Prop :=
  ∃ x y, vecGet Psi j = some x ∧ vecGet Psi (j + 1) = some y ∧ ¬ (x < y ∨ |x| > 10 ^ 50)

/-- Lines 359-370: the loop `for (int i = ...; i < matchPoint; ++i)` of the integration
that starts at the origin, entered with the given `i`; fuel and `none` as in `zeroFill`. -/
def outwardLoop (self : Numerov F) (l : Nat) (E : F) : Nat → Int → MatchState F →
    Option (MatchState F)
  | 0, i, s => if i < s.matchPoint then none else some s
  | fuel + 1, i, s =>
    if i < s.matchPoint then
      let wnext := 2 * s.w - s.wprev + self.h2 * s.solution * s.funcVal
      let position := self.h * (i : F)
      let funcVal := self.function.apply l E position i
      let solution := self.getU wnext funcVal
      match vecSet s.Psi i solution with
      | none => none
      | some Psi1 =>
        outwardLoop self l E fuel (i + 1)
          { Psi := Psi1, solution := solution, funcVal := funcVal, wprev := s.w,
            w := wnext, matchPoint := s.matchPoint }
    else some s

/-- Lines 380-381: the loop `for (int i = ...; i < size; ++i) Psi[i] *= factor`, entered
with the given `i`; fuel and `none` as in `zeroFill`. -/
def rescaleLoop (factor : F) (size : Int) : Nat → Int → List F → Option (List F)
  | 0, i, Psi => if i < size then none else some Psi
  | fuel + 1, i, Psi =>
    if i < size then
      match vecGet Psi i with
      | none => none
      | some x =>
        match vecSet Psi i (x * factor) with
        | none => none
        | some Psi1 => rescaleLoop factor size fuel (i + 1) Psi1
    else some Psi

/-- Lines 286-314: the vector `Psi` is created, the range is capped, the entries above
the capped `steps` are zeroed and the step is recomputed.  The result holds the solver
with its final fields, the capped `startPoint`, the capped `steps` and `Psi`; it is
`none` when `steps + 1` is negative (the vector cannot be created). -/
def matchSetup (self : Numerov F) (startPoint E : F) (steps : Int) :
    Option (Numerov F × F × Int × List F) :=
  let highLimit := steps + 1
  if highLimit < 0 then none
  else
    let Psi : List F := List.replicate highLimit.toNat 0
    let c := capRange self startPoint E steps
    let startPoint1 := c.2.1
    let steps1 := c.2.2
    match zeroFill highLimit (highLimit - (steps1 + 1)).toNat (steps1 + 1) Psi with
    | none => none
    | some Psi1 =>
      let h := startPoint1 / (steps1 : F)
      some ({ c.1 with h := h, h2 := h * h, h2p12 := h * h / 12 }, startPoint1, steps1, Psi1)

/-- Lines 317-348: the integration that starts at the far end (`startPoint` and `steps`
are the capped ones), run on the vector `Psi`. -/
def inwardPass (self : Numerov F) (startPoint : F) (l : Nat) (E : F) (steps : Int)
    (Psi : List F) : Option (MatchState F) :=
  let position := startPoint
  let solution := self.function.GetBoundaryValueFar position E
  match vecSet Psi steps solution with
  | none => none
  | some Psi1 =>
    let funcVal := self.function.apply l E position steps
    let wprev := (1 - self.h2p12 * funcVal) * solution
    let position := position - self.h
    let solution := self.function.GetBoundaryValueFar position E
    match vecSet Psi1 (steps - 1) solution with
    | none => none
    | some Psi2 =>
      let funcVal := self.function.apply l E position (steps - 1)
      let w := (1 - self.h2p12 * funcVal) * solution
      inwardLoop self l E (steps - 2).toNat (steps - 2)
        { Psi := Psi2, solution := solution, funcVal := funcVal, wprev := wprev, w := w,
          matchPoint := 2 }

/-- Lines 350-370: the integration that starts at the origin and runs up to the
match point left by the first integration. -/
def outwardPass (self : Numerov F) (l : Nat) (E : F) (s : MatchState F) :
    Option (MatchState F) :=
  match vecSet s.Psi 0 0 with
  | none => none
  | some Psi1 =>
    let position := 0 + self.h
    let solution := self.function.GetBoundaryValueZero position (l : Int)
    match vecSet Psi1 1 solution with
    | none => none
    | some Psi2 =>
      let funcVal := self.function.apply l E position 1
      let w := (1 - self.h2p12 * funcVal) * solution
      outwardLoop self l E (s.matchPoint - 2).toNat 2
        { Psi := Psi2, solution := solution, funcVal := funcVal, wprev := 0, w := w,
          matchPoint := s.matchPoint }

/-- Lines 372-375: the value that the integration from the origin gives at the match
point. -/
def matchValue (self : Numerov F) (l : Nat) (E : F) (t : MatchState F) : F :=
  let w := 2 * t.w - t.wprev + self.h2 * t.solution * t.funcVal
  let position := self.h * (t.matchPoint : F)
  let funcVal := self.function.apply l E position t.matchPoint
  self.getU w funcVal

/-- Lines 372-381: the value at the match point is stored and the entries above it are
multiplied by `factor` (`size` is the capped `steps` plus one). -/
def joinPass (self : Numerov F) (l : Nat) (E : F) (size : Int) (t : MatchState F) :
    Option (List F) :=
  let solution := matchValue self l E t
  match vecGet t.Psi t.matchPoint with
  | none => none
  | some atMatch =>
    let factor := solution / atMatch
    match vecSet t.Psi t.matchPoint solution with
    | none => none
    | some Psi1 => rescaleLoop factor size (size - (t.matchPoint + 1)).toNat (t.matchPoint + 1) Psi1

/-- What `SolveSchrodingerMatchSolutionCompletely` leaves behind: the vector returned,
the value written to `matchPoint` and the solver with its final fields. -/
structure MatchResult (F : Type) where
  Psi : List F
  matchPoint : Int
  self : Numerov F

/-- Lines 284-384: `SolveSchrodingerMatchSolutionCompletely(startPoint, l, E, steps,
matchPoint)`; `none` when the vector cannot be created or an index is out of range. -/
def SolveSchrodingerMatchSolutionCompletely (self : Numerov F) (startPoint : F) (l : Nat)
    (E : F) (steps : Int) : Option (MatchResult F) :=
  match matchSetup self startPoint E steps with
  | none => none
  | some (self1, startPoint1, steps1, Psi) =>
    match inwardPass self1 startPoint1 l E steps1 Psi with
    | none => none
    | some s =>
      match outwardPass self1 l E s with
      | none => none
      | some t =>
        match joinPass self1 l E (steps1 + 1) t with
        | none => none
        | some Psi1 => some { Psi := Psi1, matchPoint := t.matchPoint, self := self1 }

/-- The capped step count of a call: the value of `steps` after lines 289-306. -/
def cappedSteps (self : Numerov F) (startPoint E : F) (steps : Int) : Int :=
  (capRange self startPoint E steps).2.2

/-- The capped range of a call: the value of `startPoint` after lines 289-306. -/
def cappedStart (self : Numerov F) (startPoint E : F) (steps : Int) : F :=
  (capRange self startPoint E steps).2.1

/-- The solver after line 312 of a call: `h` is the capped range divided by the capped
step count, `h2` and `h2p12` follow from it. -/
def matchSolver (self : Numerov F) (startPoint E : F) (steps : Int) : Numerov F :=
  let h := cappedStart self startPoint E steps / (cappedSteps self startPoint E steps : F)
  { (capRange self startPoint E steps).1 with h := h, h2 := h * h, h2p12 := h * h / 12 }

/-- The state of a call after line 348, when the integration from the far end is done
and the one from the origin has not started. -/
def inwardResult (self : Numerov F) (startPoint : F) (l : Nat) (E : F) (steps : Int) :
    Option (MatchState F) :=
  match matchSetup self startPoint E steps with
  | none => none
  | some (self1, startPoint1, steps1, Psi) => inwardPass self1 startPoint1 l E steps1 Psi

/-- The values at the indices `0 .. steps` of the integration that starts at the origin,
obtained by letting lines 350-370 run up to `steps` on a vector of zeros. -/
def outwardValues (self : Numerov F) (l : Nat) (E : F) (steps : Int) : Option (List F) :=
  (outwardPass self l E
    { Psi := List.replicate (steps + 1).toNat 0, solution := 0, funcVal := 0, wprev := 0,
      w := 0, matchPoint := steps + 1 }).map fun t => t.Psi

/-- The match index in the words of the specification: the first index at which the
value of the integration from the origin is smaller in magnitude than the value at the
previous index, or exceeds `10 ^ 50` in magnitude. -/
def specMatchIndex (u : List F) : Option Nat :=
  (List.range u.length).find? fun i =>
    decide (1 ≤ i ∧ (|u.getD i 0| < |u.getD (i - 1) 0| ∨ |u.getD i 0| > 10 ^ 50))

end Numerov

end NumerovDefs

/-- A sample grid over `ℚ`: the uniform-grid formulas of lines 21-41 and 54-57 for the
constant potential `-1`, with the rational expression `2 * |E|` standing for
`sqrt(2 * |E|)` (they agree at `E = -1/2`) and `1 / (1 + x)` standing for `exp(-x)`. -/
def sampleGrid : NumerovFunction ℚ where
  GetEffectivePotential l position _ := -1 + (l : ℚ) * ((l : ℚ) + 1) / (position * position) * (1 / 2)
  apply l E position _ :=
    2 * ((-1 + (l : ℚ) * ((l : ℚ) + 1) / (position * position) * (1 / 2)) - E)
  GetBoundaryValueFar position E := 1 / (1 + position * (2 * |E|))
  GetBoundaryValueZero position l := position ^ (l + 1).toNat
  GetMaxRadiusIndex E := truncToInt (323 / (2 * |E|))
  GetMaxRadius E := 323 / (2 * |E|)

/-- A solver over `sampleGrid`; the initial fields are arbitrary. -/
def sampleSolver : Numerov ℚ := { function := sampleGrid, h := 0, h2 := 0, h2p12 := 0 }


/-- Lines 10-13: `Subshell::operator<`. -/
def Subshell.lt (a b : Subshell) : Bool :=
  decide (a.m_N < b.m_N ∨ (a.m_N = b.m_N ∧ a.m_L < b.m_L))


section NumerovDefs2

variable {F : Type} [LinearOrderedField F] [FloorRing F]

/-- Conversion of an `int` to `unsigned int` (32 bits): the value modulo `2 ^ 32`. -/
def toUnsigned (n : Int) : Nat := (n % 2 ^ 32).toNat

/-- Conversion of an `unsigned int` (32 bits) to `int`, in two's complement. -/
def toSigned (u : Nat) : Int := if u % 2 ^ 32 < 2 ^ 31 then (u % 2 ^ 32 : Nat) else (u % 2 ^ 32 : Nat) - 2 ^ 32

namespace Numerov

/-- The places where `SolveSchrodingerCountNodes` returns: line 204 (`overflow`),
line 211 (`limit`), line 221 (`turningPoint`) and the end of the function, reached
with or without the increment of line 228 (`finished`). -/
inductive CountExit where
  | overflow
  | limit
  | turningPoint
  | finished (added : Bool)
  deriving DecidableEq, Repr

/-- The local variables of `SolveSchrodingerCountNodes` that its loop reads or writes,
with the count it writes to `nodesCount`. -/
structure CountState (F : Type) where
  solution : F
  prevSol : F
  funcVal : F
  wprev : F
  w : F
  oldSgn : Bool
  nodesCount : Int
  firstClassicalReturnPoint : Bool

/-- Lines 216-221, at the end of the loop body: the turning-point test, followed by the
next iteration (given as `next`) unless the function returns. -/
def turningPointStep (self : Numerov F) (l : Nat) (E : F) (i : Int) (s : CountState F)
    (next : CountState F → Option (CountState F × Option CountExit)) :
    Option (CountState F × Option CountExit) :=
  let effPotential := self.function.GetEffectivePotential l (self.h * (i : F)) i
  if effPotential ≤ E then next { s with firstClassicalReturnPoint := true }
  else if s.firstClassicalReturnPoint = true ∧ effPotential > E then
    some (s, some CountExit.turningPoint)
  else next s

/-- Lines 189-222: the loop `for (int i = ...; i > 0; --i)` of
`SolveSchrodingerCountNodes`, entered with the given `i`.  The result holds the state
and the place of the `return` taken inside the loop, if any; it is `none` when the
bound on the iterations is used up.  The test `abs(solution) == infinity` of line 203
is the argument `isInfinity`: no element of an ordered field is infinite, so the values
that a floating-point run finds infinite are left to the caller of the embedding. -/
def countLoop (self : Numerov F) (isInfinity : F → Bool) (l : Nat) (E : F)
    (nodesLimit : Int) : Nat → Int → CountState F → Option (CountState F × Option CountExit)
  | 0, i, s => if i > 0 then none else some (s, none)
  | fuel + 1, i, s =>
    if i > 0 then
      let wnext := 2 * s.w - s.wprev + self.h2 * s.solution * s.funcVal
      let position := self.h * (i : F)
      let funcVal := self.function.apply l E position i
      let solution := self.getU wnext funcVal
      let s1 : CountState F :=
        { s with wprev := s.w, w := wnext, funcVal := funcVal, prevSol := s.solution,
                 solution := solution }
      if isInfinity |solution| = true then some (s1, some CountExit.overflow)
      else
        let newSgn := decide (solution > 0)
        if newSgn ≠ s1.oldSgn then
          let s2 : CountState F := { s1 with nodesCount := s1.nodesCount + 1 }
          if s2.nodesCount > nodesLimit then some (s2, some CountExit.limit)
          else
            turningPointStep self l E i { s2 with oldSgn := newSgn }
              (countLoop self isInfinity l E nodesLimit fuel (i - 1))
        else
          turningPointStep self l E i s1 (countLoop self isInfinity l E nodesLimit fuel (i - 1))
    else some (s, none)

/-- What `SolveSchrodingerCountNodes` leaves behind: the value written to `nodesCount`,
the place where the function returned and the solver with its final fields. -/
structure CountResult (F : Type) where
  nodesCount : Int
  exit : CountExit
  self : Numerov F

/-- Lines 151-230: `SolveSchrodingerCountNodes(startPoint, l, E, steps, nodesLimit,
nodesCount)`. -/
def SolveSchrodingerCountNodes (self : Numerov F) (isInfinity : F → Bool) (startPoint : F)
    (l : Nat) (E : F) (steps nodesLimit : Int) : Option (CountResult F) :=
  let c := capRange self startPoint E steps
  let self1 := c.1
  let startPoint1 := c.2.1
  let steps1 := c.2.2
  let position := startPoint1
  let solution := self1.function.GetBoundaryValueFar position E
  let prevSol := solution
  let funcVal := self1.function.apply l E position steps1
  let wprev := (1 - self1.h2p12 * funcVal) * solution
  let position := position - self1.h
  let solution := self1.function.GetBoundaryValueFar position E
  let funcVal := self1.function.apply l E position (steps1 - 1)
  let w := (1 - self1.h2p12 * funcVal) * solution
  let oldSgn := decide (solution > 0)
  match countLoop self1 isInfinity l E nodesLimit (steps1 - 2).toNat (steps1 - 2)
      { solution := solution, prevSol := prevSol, funcVal := funcVal, wprev := wprev, w := w,
        oldSgn := oldSgn, nodesCount := 0, firstClassicalReturnPoint := false } with
  | none => none
  | some (s, some e) => some { nodesCount := s.nodesCount, exit := e, self := self1 }
  | some (s, none) =>
    if s.nodesCount ≤ nodesLimit then
      let solution := s.solution * (2 + self1.h2 * s.funcVal) - s.prevSol
      if decide (solution > 0) ≠ s.oldSgn then
        some { nodesCount := s.nodesCount + 1, exit := CountExit.finished true, self := self1 }
      else some { nodesCount := s.nodesCount, exit := CountExit.finished false, self := self1 }
    else some { nodesCount := s.nodesCount, exit := CountExit.finished false, self := self1 }

/-- The local variables of `SolveSchrodingerSolutionInZero` that its loop reads or
writes. -/
structure ZeroState (F : Type) where
  solution : F
  prevSol : F
  funcVal : F
  wprev : F
  w : F

/-- Lines 265-277: the loop `for (int i = ...; i > 0; --i)` of
`SolveSchrodingerSolutionInZero`, entered with the given `i`; `none` when the bound on
the iterations is used up. -/
def zeroLoop (self : Numerov F) (l : Nat) (E : F) : Nat → Int → ZeroState F →
    Option (ZeroState F)
  | 0, i, s => if i > 0 then none else some s
  | fuel + 1, i, s =>
    if i > 0 then
      let wnext := 2 * s.w - s.wprev + self.h2 * s.solution * s.funcVal
      let position := self.h * (i : F)
      let funcVal := self.function.apply l E position i
      zeroLoop self l E fuel (i - 1)
        { solution := self.getU wnext funcVal, prevSol := s.solution, funcVal := funcVal,
          wprev := s.w, w := wnext }
    else some s

/-- What `SolveSchrodingerSolutionInZero` leaves behind: the value returned and the
solver with its final fields. -/
structure ZeroResult (F : Type) where
  solution : F
  self : Numerov F

/-- Lines 232-282: `SolveSchrodingerSolutionInZero(startPoint, l, E, steps)`.  Here
`steps` is an `unsigned int`: the capped step count is stored modulo `2 ^ 32`, and it
is read back as an `int` where the source passes it as an index or starts the loop. -/
def SolveSchrodingerSolutionInZero (self : Numerov F) (startPoint : F) (l : Nat) (E : F)
    (steps : Nat) : Option (ZeroResult F) :=
  let c := capRange self startPoint E (steps : Int)
  let self1 := c.1
  let startPoint1 := c.2.1
  let steps1 : Nat := toUnsigned c.2.2
  let position := startPoint1
  let solution := self1.function.GetBoundaryValueFar position E
  let prevSol := solution
  let funcVal := self1.function.apply l E position (toSigned steps1)
  let wprev := (1 - self1.h2p12 * funcVal) * solution
  let position := position - self1.h
  let solution := self1.function.GetBoundaryValueFar position E
  let funcVal := self1.function.apply l E position (toSigned (toUnsigned ((steps1 : Int) - 1)))
  let w := (1 - self1.h2p12 * funcVal) * solution
  let i0 := toSigned (toUnsigned ((steps1 : Int) - 2))
  match zeroLoop self1 l E i0.toNat i0
      { solution := solution, prevSol := prevSol, funcVal := funcVal, wprev := wprev,
        w := w } with
  | none => none
  | some s =>
    some { solution := s.solution * (2 + self1.h2 * s.funcVal) - s.prevSol, self := self1 }

end Numerov

end NumerovDefs2


section NumerovDefs3

variable {F : Type} [LinearOrderedField F] [FloorRing F]

namespace Numerov

/-- The coefficient `f[i]` of the recurrence: the grid's `operator()` at index `i` and
position `h * i`. -/
def odeCoefficient (self : Numerov F) (l : Nat) (E : F) (i : Nat) : F :=
  self.function.apply l E (self.h * (i : F)) (i : Int)

/-- The sequence `w[i]` of the outward Numerov solution in the words of the
specification: `w[0] = 0`, `w[1] = (1 - h^2 f[1] / 12) u[1]` and
`w[i+1] = 2 w[i] - w[i-1] + h^2 u[i] f[i]`, where `u[1] = GetBoundaryValueZero(h, l)`
and `u[i] = w[i] / (1 - h^2 f[i] / 12)` for the other indices. -/
def specOutwardW (self : Numerov F) (l : Nat) (E : F) : Nat → F
  | 0 => 0
  | 1 => (1 - self.h ^ 2 * odeCoefficient self l E 1 / 12) *
      self.function.GetBoundaryValueZero self.h (l : Int)
  | i + 2 =>
    2 * specOutwardW self l E (i + 1) - specOutwardW self l E i +
      self.h ^ 2 *
        (if i + 1 = 1 then self.function.GetBoundaryValueZero self.h (l : Int)
         else specOutwardW self l E (i + 1) /
           (1 - self.h ^ 2 * odeCoefficient self l E (i + 1) / 12)) *
        odeCoefficient self l E (i + 1)

/-- The sequence `u[i]` of the outward Numerov solution in the words of the
specification (see `specOutwardW`). -/
def specOutwardU (self : Numerov F) (l : Nat) (E : F) (i : Nat) : F :=
  if i = 1 then self.function.GetBoundaryValueZero self.h (l : Int)
  else specOutwardW self l E i / (1 - self.h ^ 2 * odeCoefficient self l E i / 12)

/-- What the variables of the integration from the origin hold when the loop of lines
359-370 is about to run its body for the index `n`: the two last `w`, the last `u` and
`f`, and the entries `1 .. n - 1` of `Psi`. -/
def outwardInvariant (self : Numerov F) (l : Nat) (E : F) (n : Nat) (s : MatchState F) : Prop :=
  s.w = specOutwardW self l E (n - 1) ∧ s.wprev = specOutwardW self l E (n - 2) ∧
  s.solution = specOutwardU self l E (n - 1) ∧ s.funcVal = odeCoefficient self l E (n - 1) ∧
  ∀ j : Nat, 1 ≤ j → j < n → vecGet s.Psi (j : Int) = some (specOutwardU self l E j)

end Numerov

end NumerovDefs3


/-! Embedding of the grid classes of `Numerov.h` over the real numbers. -/

/-- Class `Potential`: the samples `m_potentialValues`. -/
structure Potential where
  m_potentialValues : List ℝ

/-- Lines 33-36: `NumerovFunctionRegularGrid::GetBoundaryValueFar(position, E)`. -/
noncomputable def NumerovFunctionRegularGrid.GetBoundaryValueFar (position E : ℝ) : ℝ :=
  Real.exp (-position * Real.sqrt (2 * |E|))

/-- Lines 38-41: `NumerovFunctionRegularGrid::GetBoundaryValueZero(position, l)`. -/
noncomputable def NumerovFunctionRegularGrid.GetBoundaryValueZero (position : ℝ) (l : Int) : ℝ :=
  position ^ (l + 1)

/-- Class `NumerovFunctionNonUniformGrid`: its data members. -/
structure NumerovFunctionNonUniformGrid where
  m_pot : Potential
  m_delta : ℝ
  Rp : ℝ
  twodelta : ℝ
  delta2p4 : ℝ
  Rp2delta2 : ℝ

namespace NumerovFunctionNonUniformGrid

/-- Lines 66-77: the constructor `NumerovFunctionNonUniformGrid(pot, delta, Rmax,
numPoints)`. -/
noncomputable def new (pot : Potential) (delta Rmax : ℝ) (numPoints : Int) :
    NumerovFunctionNonUniformGrid :=
  let Rp := Rmax / (Real.exp (((numPoints - 1 : Int) : ℝ) * delta) - 1)
  let Rp2 := Rp * Rp
  let delta2 := delta * delta
  { m_pot := pot, m_delta := delta, Rp := Rp, twodelta := 2 * delta,
    delta2p4 := delta2 / 4, Rp2delta2 := Rp2 * delta2 }

/-- Lines 129-132: `GetPosition(posIndex)`. -/
noncomputable def GetPosition (self : NumerovFunctionNonUniformGrid) (posIndex : Int) : ℝ :=
  self.Rp * (Real.exp ((posIndex : ℝ) * self.m_delta) - 1)

/-- Lines 93-98: `GetBoundaryValueFar(position, E)`. -/
noncomputable def GetBoundaryValueFar (self : NumerovFunctionNonUniformGrid)
    (position E : ℝ) : ℝ :=
  let realPosition := self.GetPosition (truncToInt position)
  Real.exp (-realPosition * Real.sqrt (2 * |E|))

/-- Lines 100-106: `GetBoundaryValueZero(position, l)`. -/
noncomputable def GetBoundaryValueZero (self : NumerovFunctionNonUniformGrid)
    (position : ℝ) (l : Int) : ℝ :=
  let posInd := truncToInt position
  let realPosition := self.GetPosition posInd
  realPosition ^ (l + 1) * Real.exp (-position * self.m_delta * 0.5)

/-- Lines 116-119: `GetMaxRadius(E)`. -/
noncomputable def GetMaxRadius (E : ℝ) : ℝ := 15 / Real.sqrt (2 * |E|)

/-- Lines 109-114: `GetMaxRadiusIndex(E)`. -/
noncomputable def GetMaxRadiusIndex (self : NumerovFunctionNonUniformGrid) (E : ℝ) : Int :=
  let maxRadius := GetMaxRadius E
  truncToInt (Real.log (maxRadius / self.Rp + 1) / self.m_delta)

end NumerovFunctionNonUniformGrid

/-- A grid with `Rp = 1` and `delta = 1`, the other members as the constructor derives
them. -/
noncomputable def unitGrid : NumerovFunctionNonUniformGrid :=
  { m_pot := { m_potentialValues := [] }, m_delta := 1, Rp := 1, twodelta := 2,
    delta2p4 := 1 / 4, Rp2delta2 := 1 }

end DFT

open DFT DFT.AufbauPrinciple DFT.Numerov

/-! Properties of `GetSubshells`. -/

section Aufbau

theorem transitionAdjust_le (Z N L nr : Int) : transitionAdjust Z N L nr ≤ nr := by
  unfold transitionAdjust
  split_ifs <;> omega

theorem transitionAdjust_large (Z N L nr : Int) (hZ : 103 < Z) :
    transitionAdjust Z N L nr = nr := by
  unfold transitionAdjust
  split_ifs <;> omega

theorem clampRemaining_le (Z ec nr : Int) : clampRemaining Z ec nr ≤ nr := by
  unfold clampRemaining
  split_ifs <;> omega

theorem clampRemaining_le_rest (Z ec nr : Int) : clampRemaining Z ec nr ≤ Z - ec := by
  unfold clampRemaining
  split_ifs <;> omega

theorem clampRemaining_idle (Z ec nr : Int) (h : ec + nr ≤ Z) :
    clampRemaining Z ec nr = nr := by
  unfold clampRemaining
  split_ifs <;> omega

theorem fAdjust_cases (Z N L nr : Int) :
    fAdjust Z N L nr = nr ∨ fAdjust Z N L nr = nr - 1 ∨ fAdjust Z N L nr = 0 := by
  unfold fAdjust
  split_ifs <;> simp

theorem fAdjust_large (Z N L nr : Int) (hZ : 103 < Z) : fAdjust Z N L nr = nr := by
  unfold fAdjust
  split_ifs <;> omega

theorem fAdjust_nonpos (Z N L nr : Int) (hZ : Z ≤ 0) : fAdjust Z N L nr = nr := by
  unfold fAdjust
  split_ifs <;> omega

/-- An emitted count never exceeds the initial `2 * (2 * L + 1)`. -/
theorem nrElectronsFinal_le_base (Z N L ec : Int) (h : 0 < nrElectronsFinal Z N L ec) :
    nrElectronsFinal Z N L ec ≤ baseCapacity L := by
  unfold nrElectronsFinal at *
  have h1 := transitionAdjust_le Z N L (baseCapacity L)
  have h2 := clampRemaining_le Z ec (transitionAdjust Z N L (baseCapacity L))
  rcases fAdjust_cases Z N L
    (clampRemaining Z ec (transitionAdjust Z N L (baseCapacity L))) with h3 | h3 | h3 <;>
  omega

/-- Above `220` no exception applies and the clamp is idle while room is left. -/
theorem nrElectronsFinal_large (Z N L ec : Int) (hZ : 220 < Z)
    (h : ec + baseCapacity L ≤ 220) : nrElectronsFinal Z N L ec = baseCapacity L := by
  unfold nrElectronsFinal
  rw [fAdjust_large _ _ _ _ (by omega), transitionAdjust_large _ _ _ _ (by omega),
    clampRemaining_idle _ _ _ (by omega)]

/-- For `Z ≤ 0` nothing can be placed in the first candidate reached. -/
theorem nrElectronsFinal_nonpos (Z N L : Int) (hZ : Z ≤ 0) :
    nrElectronsFinal Z N L 0 ≤ 0 := by
  unfold nrElectronsFinal
  rw [fAdjust_nonpos _ _ _ _ hZ]
  have := clampRemaining_le_rest Z 0 (transitionAdjust Z N L (baseCapacity L))
  omega

theorem emit_of_pos (N L nr : Int) (s : LoopState) (h : 0 < nr) :
    emit N L nr s = { levels := s.levels ++ [Subshell.new N L nr],
                      electronCount := s.electronCount + nr,
                      exitLoops := s.exitLoops } := by
  simp [emit, h]

theorem emit_of_nonpos (N L nr : Int) (s : LoopState) (h : nr ≤ 0) : emit N L nr s = s := by
  have : ¬ nr > 0 := by omega
  simp [emit, this]

/-- What `emit` appends: at most the visited candidate, with a count between `1` and
the bound given. -/
theorem emit_levels (N L nr : Int) (s : LoopState) :
    ∃ e, (emit N L nr s).levels = s.levels ++ e ∧ (emit N L nr s).exitLoops = s.exitLoops ∧
      (e = [] ∨ (0 < nr ∧ e = [Subshell.new N L nr])) := by
  by_cases h : 0 < nr
  · exact ⟨[Subshell.new N L nr], by simp [emit_of_pos _ _ _ _ h],
      by simp [emit_of_pos _ _ _ _ h], Or.inr ⟨h, rfl⟩⟩
  · exact ⟨[], by simp [emit_of_nonpos _ _ _ _ (not_lt.mp h)],
      by simp [emit_of_nonpos _ _ _ _ (not_lt.mp h)], Or.inl rfl⟩

/-- One run of the loop over `N` appends a subsequence of the group's candidates. -/
theorem innerLoop_levels (Z NplusL : Int) :
    ∀ (fuel : Nat) (N : Int) (s : LoopState),
      ∃ e, (innerLoop Z NplusL fuel N s).1.levels = s.levels ++ e ∧
        List.Sublist (e.map Subshell.nl) ((groupCandidates NplusL fuel N).map Subshell.nl) ∧
        ∀ x ∈ e, countInRange x := by
  intro fuel
  induction fuel with
  | zero => intro N s; exact ⟨[], by simp [innerLoop], by simp, by simp⟩
  | succ fuel ih =>
    intro N s
    by_cases h1 : N ≤ NplusL
    · by_cases h2 : NplusL - N ≤ N
      · obtain ⟨e0, he0, hx0, hc0⟩ :=
          emit_levels N (NplusL - N) (nrElectronsFinal Z N (NplusL - N) s.electronCount) s
        have hsub0 : List.Sublist (e0.map Subshell.nl)
            [(Subshell.new N (NplusL - N) (baseCapacity (NplusL - N))).nl] := by
          rcases hc0 with rfl | ⟨_, rfl⟩
          · simp
          · simp [Subshell.nl, Subshell.new]
        have hr0 : ∀ x ∈ e0, countInRange x := by
          rcases hc0 with rfl | ⟨hpos, rfl⟩
          · simp
          · intro x hx
            simp only [List.mem_singleton] at hx
            subst hx
            exact ⟨by simpa [Subshell.new] using hpos,
              by simpa [Subshell.new] using nrElectronsFinal_le_base _ _ _ _ hpos⟩
        by_cases h3 : (emit N (NplusL - N)
            (nrElectronsFinal Z N (NplusL - N) s.electronCount) s).electronCount = Z
        · refine ⟨e0, ?_, ?_, hr0⟩
          · simp [innerLoop, h1, h2, h3, he0]
          · simp only [groupCandidates, h1, h2, if_true, List.map_cons]
            exact hsub0.trans (by simp)
        · obtain ⟨e1, he1, hsub1, hr1⟩ := ih (N + 1) (emit N (NplusL - N)
            (nrElectronsFinal Z N (NplusL - N) s.electronCount) s)
          refine ⟨e0 ++ e1, ?_, ?_, ?_⟩
          · simp [innerLoop, h1, h2, h3, he1, he0]
          · simp only [groupCandidates, h1, h2, if_true, List.map_cons, List.map_append]
            exact List.Sublist.append hsub0 hsub1
          · intro x hx
            rcases List.mem_append.mp hx with hx | hx
            · exact hr0 x hx
            · exact hr1 x hx
      · obtain ⟨e1, he1, hsub1, hr1⟩ := ih (N + 1) s
        exact ⟨e1, by simp [innerLoop, h1, h2, he1],
          by simpa [groupCandidates, h1, h2] using hsub1, hr1⟩
    · exact ⟨[], by simp [innerLoop, h1], by simp, by simp⟩

/-- The loop over `NplusL` appends a subsequence of the remaining candidates. -/
theorem outerLoop_levels (Z : Int) :
    ∀ (fuel : Nat) (NplusL : Int) (s : LoopState),
      ∃ e, (outerLoop Z fuel NplusL s).1.levels = s.levels ++ e ∧
        List.Sublist (e.map Subshell.nl) ((candidatesFrom fuel NplusL).map Subshell.nl) ∧
        ∀ x ∈ e, countInRange x := by
  intro fuel
  induction fuel with
  | zero => intro k s; exact ⟨[], by simp [outerLoop], by simp, by simp⟩
  | succ fuel ih =>
    intro k s
    by_cases h1 : s.exitLoops = false ∧ k < 10
    · obtain ⟨e0, he0, hsub0, hr0⟩ := innerLoop_levels Z k (k.toNat + 1) 0 s
      obtain ⟨e1, he1, hsub1, hr1⟩ := ih (k + 1) (innerLoop Z k (k.toNat + 1) 0 s).1
      refine ⟨e0 ++ e1, ?_, ?_, ?_⟩
      · simp only [outerLoop, h1, and_self, if_true]
        rw [he1, he0, List.append_assoc]
      · simp only [candidatesFrom, h1.2, if_true, List.map_append]
        exact List.Sublist.append hsub0 hsub1
      · intro x hx
        rcases List.mem_append.mp hx with hx | hx
        · exact hr0 x hx
        · exact hr1 x hx
    · exact ⟨[], by simp [outerLoop, h1], by simp, by simp⟩

/-- The subshells returned are, in order, among the candidates, and each count lies
between `1` and `2 * (2 * L + 1)`. -/
theorem GetSubshells_sublist (Z : Int) :
    List.Sublist ((GetSubshells Z).map Subshell.nl) (candidates.map Subshell.nl) ∧
      ∀ x ∈ GetSubshells Z, countInRange x := by
  obtain ⟨e, he, hsub, hr⟩ :=
    outerLoop_levels Z 10 0 { levels := [], electronCount := 0, exitLoops := false }
  have : GetSubshells Z = e := by simpa [GetSubshells, run] using he
  rw [this]
  exact ⟨hsub, hr⟩

theorem totalElectrons_nil : totalElectrons [] = 0 := rfl

theorem totalElectrons_cons (x : Subshell) (l : List Subshell) :
    totalElectrons (x :: l) = x.m_nrElectrons + totalElectrons l := by
  simp [totalElectrons]

theorem totalElectrons_append (l₁ l₂ : List Subshell) :
    totalElectrons (l₁ ++ l₂) = totalElectrons l₁ + totalElectrons l₂ := by
  simp [totalElectrons]

theorem groupCandidates_total_nonneg (NplusL : Int) :
    ∀ (fuel : Nat) (N : Int), 0 ≤ totalElectrons (groupCandidates NplusL fuel N) := by
  intro fuel
  induction fuel with
  | zero => intro N; simp [groupCandidates, totalElectrons_nil]
  | succ fuel ih =>
    intro N
    have := ih (N + 1)
    unfold groupCandidates
    split_ifs with h1 h2
    · rw [totalElectrons_cons]
      simp only [Subshell.new, baseCapacity]
      omega
    · exact this
    · simp [totalElectrons_nil]

theorem candidatesFrom_total_nonneg :
    ∀ (fuel : Nat) (NplusL : Int), 0 ≤ totalElectrons (candidatesFrom fuel NplusL) := by
  intro fuel
  induction fuel with
  | zero => intro k; simp [candidatesFrom, totalElectrons_nil]
  | succ fuel ih =>
    intro k
    have h1 := ih (k + 1)
    have h2 := groupCandidates_total_nonneg k (k.toNat + 1) 0
    unfold candidatesFrom
    split_ifs
    · rw [totalElectrons_append]; omega
    · simp [totalElectrons_nil]

/-- Above `220`, one run of the loop over `N` fills every candidate of the group. -/
theorem innerLoop_large (Z NplusL : Int) (hZ : 220 < Z) :
    ∀ (fuel : Nat) (N : Int) (s : LoopState),
      s.electronCount + totalElectrons (groupCandidates NplusL fuel N) ≤ 220 →
      (innerLoop Z NplusL fuel N s).1 =
        { levels := s.levels ++ groupCandidates NplusL fuel N,
          electronCount := s.electronCount + totalElectrons (groupCandidates NplusL fuel N),
          exitLoops := s.exitLoops } := by
  intro fuel
  induction fuel with
  | zero => intro N s _; simp [innerLoop, groupCandidates, totalElectrons_nil]
  | succ fuel ih =>
    intro N s hs
    by_cases h1 : N ≤ NplusL
    · by_cases h2 : NplusL - N ≤ N
      · have hnn := groupCandidates_total_nonneg NplusL fuel (N + 1)
        simp only [groupCandidates, h1, h2, if_true, totalElectrons_cons, Subshell.new] at hs
        have hbase : 0 < baseCapacity (NplusL - N) := by unfold baseCapacity; omega
        have hnr := nrElectronsFinal_large Z N (NplusL - N) s.electronCount hZ (by omega)
        have hne : ¬ s.electronCount + baseCapacity (NplusL - N) = Z := by omega
        have hrec := ih (N + 1)
          { levels := s.levels ++ [Subshell.new N (NplusL - N) (baseCapacity (NplusL - N))],
            electronCount := s.electronCount + baseCapacity (NplusL - N),
            exitLoops := s.exitLoops } (by simp only; omega)
        simp only [innerLoop, h1, h2, if_true, hnr, emit_of_pos _ _ _ _ hbase, hne, if_false,
          groupCandidates, totalElectrons_cons]
        rw [hrec]
        simp [Subshell.new, add_assoc]
      · simp only [groupCandidates, h1, h2, if_true, if_false] at hs ⊢
        simp only [innerLoop, h1, h2, if_true, if_false]
        exact ih (N + 1) s hs
    · simp [innerLoop, groupCandidates, h1, totalElectrons_nil]

/-- Above `220`, the loop over `NplusL` fills every remaining candidate. -/
theorem outerLoop_large (Z : Int) (hZ : 220 < Z) :
    ∀ (fuel : Nat) (NplusL : Int) (s : LoopState), s.exitLoops = false →
      s.electronCount + totalElectrons (candidatesFrom fuel NplusL) ≤ 220 →
      (outerLoop Z fuel NplusL s).1 =
        { levels := s.levels ++ candidatesFrom fuel NplusL,
          electronCount := s.electronCount + totalElectrons (candidatesFrom fuel NplusL),
          exitLoops := false } := by
  intro fuel
  induction fuel with
  | zero =>
    intro k s he _
    cases s
    simp_all [outerLoop, candidatesFrom, totalElectrons_nil]
  | succ fuel ih =>
    intro k s he hs
    by_cases h1 : k < 10
    · have hnn := candidatesFrom_total_nonneg fuel (k + 1)
      simp only [candidatesFrom, h1, if_true, totalElectrons_append] at hs
      have hin := innerLoop_large Z k hZ (k.toNat + 1) 0 s (by omega)
      have hrec := ih (k + 1) (innerLoop Z k (k.toNat + 1) 0 s).1
        (by rw [hin]; exact he) (by rw [hin]; simp only; omega)
      simp only [outerLoop, he, h1, and_self, if_true, hrec, candidatesFrom,
        totalElectrons_append]
      rw [hin]
      simp [add_assoc]
    · cases s
      simp only at he
      simp [outerLoop, candidatesFrom, totalElectrons_nil, h1, he]

/-- Above `220` the result is the full list of candidates, whatever `Z` is. -/
theorem GetSubshells_large (Z : Int) (hZ : 220 < Z) : GetSubshells Z = candidates := by
  have h := outerLoop_large Z hZ 10 0 { levels := [], electronCount := 0, exitLoops := false }
    rfl (by decide)
  simp [GetSubshells, run, h, candidates]

/-- For `Z ≤ 0` the loop over `N` leaves `levels` and `electronCount` as they are. -/
theorem innerLoop_nonpos (Z NplusL : Int) (hZ : Z ≤ 0) :
    ∀ (fuel : Nat) (N : Int) (s : LoopState), s.electronCount = 0 →
      (innerLoop Z NplusL fuel N s).1.levels = s.levels ∧
      (innerLoop Z NplusL fuel N s).1.electronCount = 0 := by
  intro fuel
  induction fuel with
  | zero => intro N s hs; simp [innerLoop, hs]
  | succ fuel ih =>
    intro N s hs
    by_cases h1 : N ≤ NplusL
    · by_cases h2 : NplusL - N ≤ N
      · have hem : emit N (NplusL - N) (nrElectronsFinal Z N (NplusL - N) s.electronCount) s
            = s := by
          rw [hs]; exact emit_of_nonpos _ _ _ _ (nrElectronsFinal_nonpos Z N _ hZ)
        by_cases h3 : s.electronCount = Z
        · simp only [innerLoop, h1, h2, hem, if_true]
          rw [if_pos h3]
          exact ⟨rfl, hs⟩
        · simp only [innerLoop, h1, h2, hem, h3, if_true, if_false]
          exact ih (N + 1) s hs
      · simp only [innerLoop, h1, h2, if_true, if_false]
        exact ih (N + 1) s hs
    · simp [innerLoop, h1, hs]

theorem outerLoop_nonpos (Z : Int) (hZ : Z ≤ 0) :
    ∀ (fuel : Nat) (NplusL : Int) (s : LoopState), s.electronCount = 0 →
      (outerLoop Z fuel NplusL s).1.levels = s.levels := by
  intro fuel
  induction fuel with
  | zero => intro k s _; simp [outerLoop]
  | succ fuel ih =>
    intro k s hs
    by_cases h1 : s.exitLoops = false ∧ k < 10
    · obtain ⟨hl, he⟩ := innerLoop_nonpos Z k hZ (k.toNat + 1) 0 s hs
      simp only [outerLoop, h1, and_self, if_true]
      rw [ih (k + 1) _ he, hl]
    · simp [outerLoop, h1]

/-- For `Z ≤ 0` nothing is returned. -/
theorem GetSubshells_nonpos (Z : Int) (hZ : Z ≤ 0) : GetSubshells Z = [] := by
  simpa [GetSubshells, run] using
    outerLoop_nonpos Z hZ 10 0 { levels := [], electronCount := 0, exitLoops := false } rfl

/-- The iteration bound given to the loop over `N` is never what stops it. -/
theorem innerLoop_complete (Z NplusL : Int) :
    ∀ (fuel : Nat) (N : Int) (s : LoopState), NplusL + 1 - N ≤ fuel →
      (innerLoop Z NplusL fuel N s).2 = true := by
  intro fuel
  induction fuel with
  | zero => intro N s h; simp [innerLoop]; omega
  | succ fuel ih =>
    intro N s h
    by_cases h1 : N ≤ NplusL
    · by_cases h2 : NplusL - N ≤ N
      · by_cases h3 : (emit N (NplusL - N)
            (nrElectronsFinal Z N (NplusL - N) s.electronCount) s).electronCount = Z
        · simp only [innerLoop, h1, h2, h3, if_true]
        · simp only [innerLoop, h1, h2, h3, if_true, if_false]
          exact ih _ _ (by push_cast at h; omega)
      · simp only [innerLoop, h1, h2, if_true, if_false]
        exact ih _ _ (by push_cast at h; omega)
    · simp only [innerLoop, h1, if_false]

/-- The iteration bound given to the loop over `NplusL` is never what stops it. -/
theorem outerLoop_complete (Z : Int) :
    ∀ (fuel : Nat) (NplusL : Int) (s : LoopState), 10 - NplusL ≤ fuel →
      (outerLoop Z fuel NplusL s).2 = true := by
  intro fuel
  induction fuel with
  | zero => intro k s h; simp [outerLoop]; right; omega
  | succ fuel ih =>
    intro k s h
    unfold outerLoop
    split_ifs
    · simp only [Bool.and_eq_true]
      exact ⟨innerLoop_complete Z k _ 0 _ (by push_cast; omega),
        ih _ _ (by push_cast at h; omega)⟩
    · rfl

/-- Both loops of `GetSubshells` run to their own end for every `Z`. -/
theorem run_complete (Z : Int) : (run Z).2 = true :=
  outerLoop_complete Z 10 0 _ (by norm_num)

set_option maxRecDepth 100000 in
/-- From `0` to `220` all electrons are placed (checked by evaluating every run). -/
theorem totalElectrons_mid : ∀ z : Fin 221,
    totalElectrons (GetSubshells ((z : Nat) : Int)) = ((z : Nat) : Int) := by
  decide!

/-- The candidates are visited in strictly increasing `(N + L, N)` order. -/
theorem candidates_pairwise :
    List.Pairwise (fun p q : Int × Int => p.1 + p.2 < q.1 + q.2 ∨
      (p.1 + p.2 = q.1 + q.2 ∧ p.1 < q.1)) (candidates.map Subshell.nl) := by
  decide

/-- The candidates are exactly the pairs with `0 ≤ L ≤ N` and `N + L ≤ 9`. -/
theorem mem_candidates_iff (N L : Int) :
    (∃ c ∈ candidates, c.m_N = N ∧ c.m_L = L) ↔ (0 ≤ L ∧ L ≤ N ∧ N + L ≤ 9) := by
  constructor
  · rintro ⟨c, hc, rfl, rfl⟩
    have h : ∀ c ∈ candidates, 0 ≤ c.m_L ∧ c.m_L ≤ c.m_N ∧ c.m_N + c.m_L ≤ 9 := by decide
    exact h c hc
  · rintro ⟨h0, h1, h2⟩
    have h : ∀ n l : Fin 10, (l : Nat) ≤ n → (n : Nat) + l ≤ 9 →
        ∃ c ∈ candidates, c.m_N = ((n : Nat) : Int) ∧ c.m_L = ((l : Nat) : Int) := by
      decide
    obtain ⟨n, rfl⟩ := Int.eq_ofNat_of_zero_le (le_trans h0 h1)
    obtain ⟨l, rfl⟩ := Int.eq_ofNat_of_zero_le h0
    have hn : n < 10 := by omega
    have hl : l < 10 := by omega
    exact h ⟨n, hn⟩ ⟨l, hl⟩ (by simp only; omega) (by simp only; omega)

/-- C1: for every integer `Z` the electron counts of `GetSubshells Z` add up to `Z`
clamped to `[0, 220]`; the result is empty for `Z ≤ 0`, the sum is `Z` for `1 ≤ Z ≤ 118`
and `min Z 220` for `Z > 0`; and `220` is the sum of `2 * (2 * L + 1)` over the `30`
candidates, which are the pairs with `0 ≤ L ≤ N` and `N + L ≤ 9`. -/
theorem GetSubshells_totalElectrons (Z : Int) :
    totalElectrons (GetSubshells Z) = max 0 (min Z 220) ∧
    (Z ≤ 0 → GetSubshells Z = []) ∧
    (1 ≤ Z → Z ≤ 118 → totalElectrons (GetSubshells Z) = Z) ∧
    (0 < Z → totalElectrons (GetSubshells Z) = min Z 220) ∧
    candidates.length = 30 ∧
    (candidates.map fun c => baseCapacity c.m_L).sum = 220 ∧
    (∀ N L : Int, (∃ c ∈ candidates, c.m_N = N ∧ c.m_L = L) ↔
      (0 ≤ L ∧ L ≤ N ∧ N + L ≤ 9)) := by
  have main : totalElectrons (GetSubshells Z) = max 0 (min Z 220) := by
    rcases le_or_lt Z 0 with h | h
    · rw [GetSubshells_nonpos Z h, totalElectrons_nil]; omega
    · rcases le_or_lt Z 220 with h2 | h2
      · obtain ⟨n, rfl⟩ := Int.eq_ofNat_of_zero_le (le_of_lt h)
        have := totalElectrons_mid ⟨n, by omega⟩
        simp only at this
        rw [this]; omega
      · rw [GetSubshells_large Z h2]
        have : totalElectrons candidates = 220 := by decide
        rw [this]; omega
  refine ⟨main, GetSubshells_nonpos Z, ?_, ?_, by decide, by decide, mem_candidates_iff⟩
  · intro h1 h2; rw [main]; omega
  · intro h1; rw [main]; omega

/-- Witness for C1 at `Z = 24` (chromium). -/
theorem GetSubshells_totalElectrons_witness :
    (1 : Int) ≤ 24 ∧ (24 : Int) ≤ 118 ∧ totalElectrons (GetSubshells 24) = 24 :=
  ⟨by decide, by decide, (GetSubshells_totalElectrons 24).2.2.1 (by decide) (by decide)⟩

/-- C2: for every integer `Z` consecutive subshells of `GetSubshells Z` are strictly
increasing in the key `(N + L, N)` compared lexicographically, and no `(N, L)` pair
appears twice. -/
theorem GetSubshells_strictly_increasing (Z : Int) :
    List.Chain' (fun a b : Subshell => a.m_N + a.m_L < b.m_N + b.m_L ∨
      (a.m_N + a.m_L = b.m_N + b.m_L ∧ a.m_N < b.m_N)) (GetSubshells Z) ∧
    ((GetSubshells Z).map fun s => (s.m_N, s.m_L)).Nodup := by
  have hp := candidates_pairwise.sublist (GetSubshells_sublist Z).1
  constructor
  · rw [List.pairwise_map] at hp
    exact List.Pairwise.chain' hp
  · have hp2 : List.Pairwise (fun p q : Int × Int => p ≠ q)
        ((GetSubshells Z).map Subshell.nl) := by
      refine hp.imp ?_
      rintro p q h rfl
      omega
    exact hp2

/-- C3: the s-electron transfer exceptions: `(3, 0)` holds `1` electron for `Z = 24, 29`,
`(4, 0)` holds `1` for `Z = 41, 42, 44, 45, 47`, `(5, 0)` holds `1` for `Z = 78, 79`, and
every other subshell with `L = 0` in those results holds `2`. -/
theorem GetSubshells_s_transfer :
    (∀ Z ∈ ([24, 29] : List Int),
      (3, 0, 1) ∈ occupations (GetSubshells Z) ∧
      ∀ x ∈ GetSubshells Z, x.m_L = 0 → x.m_N ≠ 3 → x.m_nrElectrons = 2) ∧
    (∀ Z ∈ ([41, 42, 44, 45, 47] : List Int),
      (4, 0, 1) ∈ occupations (GetSubshells Z) ∧
      ∀ x ∈ GetSubshells Z, x.m_L = 0 → x.m_N ≠ 4 → x.m_nrElectrons = 2) ∧
    (∀ Z ∈ ([78, 79] : List Int),
      (5, 0, 1) ∈ occupations (GetSubshells Z) ∧
      ∀ x ∈ GetSubshells Z, x.m_L = 0 → x.m_N ≠ 5 → x.m_nrElectrons = 2) := by
  refine ⟨?_, ?_, ?_⟩ <;> decide

/-- Witness for C3: chromium, `Z = 24`, has `(3, 0)` with one electron. -/
theorem GetSubshells_s_transfer_witness :
    (24 : Int) ∈ ([24, 29] : List Int) ∧ (3, 0, 1) ∈ occupations (GetSubshells 24) :=
  ⟨by decide, (GetSubshells_s_transfer.1 24 (by decide)).1⟩

/-- C4: for the noble gases `Z = 2, 10, 18, 36, 54, 86` every subshell returned holds
exactly `2 * (2 * L + 1)` electrons. -/
theorem GetSubshells_noble_gas :
    ∀ Z ∈ ([2, 10, 18, 36, 54, 86] : List Int),
      ∀ x ∈ GetSubshells Z, x.m_nrElectrons = 2 * (2 * x.m_L + 1) := by
  decide

/-- Witness for C4: neon, `Z = 10`, and its subshell `(1, 1)` with six electrons. -/
theorem GetSubshells_noble_gas_witness :
    (10 : Int) ∈ ([2, 10, 18, 36, 54, 86] : List Int) ∧
    Subshell.new 1 1 6 ∈ GetSubshells 10 ∧
    (Subshell.new 1 1 6).m_nrElectrons = 2 * (2 * (Subshell.new 1 1 6).m_L + 1) :=
  ⟨by decide, by decide,
    GetSubshells_noble_gas 10 (by decide) (Subshell.new 1 1 6) (by decide)⟩

/-- C5, as stated, fails: at `Z = 46` the candidate `(4, 2)` keeps `10` before the clamp
(not `8`), the candidate `(4, 0)` does not keep `2`, and `(4, 0)` is not in the result. -/
theorem Pd_exception_not_on_4_2 :
    transitionAdjust 46 4 2 (baseCapacity 2) ≠ 8 ∧
    transitionAdjust 46 4 0 (baseCapacity 0) ≠ 2 ∧
    (4, 0, 2) ∉ occupations (GetSubshells 46) ∧
    ∀ x ∈ GetSubshells 46, ¬ (x.m_N = 4 ∧ x.m_L = 0) := by
  decide

/-- C5, amended: at `Z = 46` the reduction by `2` is applied to the candidate `(4, 0)`,
whose value before the clamp is `2 - 2 = 0`, and to no other candidate (so `(4, 2)` keeps
`10`); the candidate `(4, 0)` is therefore not emitted, and `(3, 2)` is emitted with `10`
electrons. -/
theorem Pd_exception_on_4_0 :
    transitionAdjust 46 4 0 (baseCapacity 0) = 2 - 2 ∧
    (∀ N L nr : Int, ¬ (N = 4 ∧ L = 0) → transitionAdjust 46 N L nr = nr) ∧
    transitionAdjust 46 4 2 (baseCapacity 2) = 10 ∧
    (∀ x ∈ GetSubshells 46, ¬ (x.m_N = 4 ∧ x.m_L = 0)) ∧
    (3, 2, 10) ∈ occupations (GetSubshells 46) := by
  refine ⟨by decide, ?_, by decide, by decide, by decide⟩
  intro N L nr h
  unfold transitionAdjust
  split_ifs with h1 h2 h3 h4 h5 h6
  all_goals first | rfl | omega

/-- Witness for the amended C5: the candidate `(3, 2)` is left alone at `Z = 46`. -/
theorem Pd_exception_on_4_0_witness :
    ¬ ((3 : Int) = 4 ∧ (2 : Int) = 0) ∧ transitionAdjust 46 3 2 10 = 10 :=
  ⟨by decide, Pd_exception_on_4_0.2.1 3 2 10 (by decide)⟩

/-- C6: the lanthanide and actinide exceptions act on the clamped value and give:
for `Z = 57, 58, 64`, `Z - 57` electrons in `(3, 3)` and `1` in `(4, 2)`;
for `Z = 89, 90`, none in `(4, 3)` and `Z - 88` in `(5, 2)`;
for `Z = 91, 92, 93, 96`, `Z - 89` in `(4, 3)` and `1` in `(5, 2)`;
for `Z = 103`, none in `(5, 2)`, `14` in `(4, 3)` and `1` in `(6, 1)`. -/
theorem GetSubshells_f_exceptions :
    (∀ Z N L ec : Int, nrElectronsFinal Z N L ec =
      fAdjust Z N L (clampRemaining Z ec (transitionAdjust Z N L (baseCapacity L)))) ∧
    (∀ Z ∈ ([57, 58, 64] : List Int),
      occupationOf (GetSubshells Z) 3 3 = Z - 57 ∧ occupationOf (GetSubshells Z) 4 2 = 1) ∧
    (∀ x ∈ GetSubshells 57, ¬ (x.m_N = 3 ∧ x.m_L = 3)) ∧
    (∀ Z ∈ ([89, 90] : List Int),
      (∀ x ∈ GetSubshells Z, ¬ (x.m_N = 4 ∧ x.m_L = 3)) ∧
      occupationOf (GetSubshells Z) 5 2 = Z - 88) ∧
    (∀ Z ∈ ([91, 92, 93, 96] : List Int),
      occupationOf (GetSubshells Z) 4 3 = Z - 89 ∧ occupationOf (GetSubshells Z) 5 2 = 1) ∧
    ((∀ x ∈ GetSubshells 103, ¬ (x.m_N = 5 ∧ x.m_L = 2)) ∧
      occupationOf (GetSubshells 103) 4 3 = 14 ∧ occupationOf (GetSubshells 103) 6 1 = 1) := by
  refine ⟨fun _ _ _ _ => rfl, ?_, ?_, ?_, ?_, ?_⟩ <;> decide

/-- Witness for C6: cerium, `Z = 58`. -/
theorem GetSubshells_f_exceptions_witness :
    (58 : Int) ∈ ([57, 58, 64] : List Int) ∧
    occupationOf (GetSubshells 58) 3 3 = 58 - 57 ∧ occupationOf (GetSubshells 58) 4 2 = 1 :=
  ⟨by decide, GetSubshells_f_exceptions.2.1 58 (by decide)⟩

/-- C7: for every integer `Z` every subshell of `GetSubshells Z` has a count `c` with
`1 ≤ c ≤ 2 * (2 * L + 1)`: a candidate whose adjusted value is zero or negative is not
emitted, and a positive adjusted value never exceeds `2 * (2 * L + 1)`. -/
theorem GetSubshells_count_bounds (Z : Int) :
    (∀ x ∈ GetSubshells Z, 1 ≤ x.m_nrElectrons ∧ x.m_nrElectrons ≤ 2 * (2 * x.m_L + 1)) ∧
    (∀ (N L nr : Int) (s : LoopState), nr ≤ 0 → emit N L nr s = s) ∧
    (∀ N L ec : Int, 0 < nrElectronsFinal Z N L ec →
      nrElectronsFinal Z N L ec ≤ 2 * (2 * L + 1)) :=
  ⟨(GetSubshells_sublist Z).2, emit_of_nonpos, nrElectronsFinal_le_base Z⟩

/-- Witness for C7: the subshell `(2, 2)` of chromium holds five electrons. -/
theorem GetSubshells_count_bounds_witness :
    Subshell.new 2 2 5 ∈ GetSubshells 24 ∧
    1 ≤ (Subshell.new 2 2 5).m_nrElectrons ∧
    (Subshell.new 2 2 5).m_nrElectrons ≤ 2 * (2 * (Subshell.new 2 2 5).m_L + 1) :=
  ⟨by decide, (GetSubshells_count_bounds 24).1 (Subshell.new 2 2 5) (by decide)⟩

end Aufbau

/-! Properties of `SolveSchrodingerMatchSolutionCompletely`. -/

section Truncation

variable {F : Type} [LinearOrderedField F] [FloorRing F]

theorem truncToInt_intCast (n : Int) : truncToInt ((n : Int) : F) = n := by
  unfold truncToInt
  split_ifs <;> simp

theorem truncToInt_le_of_nonneg {x : F} (hx : 0 ≤ x) {n : Int} (h : x ≤ (n : F)) :
    truncToInt x ≤ n := by
  unfold truncToInt
  rw [if_pos hx]
  exact Int.floor_le_iff.mpr (lt_of_le_of_lt h (by exact_mod_cast Int.lt_succ_self n))

theorem le_of_two_le_truncToInt {x : F} (h : 2 ≤ truncToInt x) : 2 ≤ x := by
  unfold truncToInt at h
  split_ifs at h with hx
  · have := Int.floor_le x
    have h2 : ((2 : Int) : F) ≤ ((⌊x⌋ : Int) : F) := by exact_mod_cast h
    calc (2 : F) = ((2 : Int) : F) := by norm_num
      _ ≤ _ := h2
      _ ≤ x := this
  · exfalso
    have hx' : x ≤ 0 := le_of_lt (not_le.mp hx)
    have : ⌈x⌉ ≤ 0 := Int.ceil_le.mpr (by simpa using hx')
    omega

end Truncation

section VectorAccess

variable {F : Type}

theorem vecSet_eq_some {v v1 : List F} {i : Int} {x : F} (h : vecSet v i x = some v1) :
    0 ≤ i ∧ i < (v.length : Int) ∧ v1 = v.set i.toNat x := by
  unfold vecSet at h
  split_ifs at h with hc
  exact ⟨hc.1, hc.2, (Option.some.inj h).symm⟩

theorem vecSet_of_lt (v : List F) {i : Int} (x : F) (h0 : 0 ≤ i) (h1 : i < (v.length : Int)) :
    vecSet v i x = some (v.set i.toNat x) := by
  unfold vecSet
  rw [if_pos ⟨h0, h1⟩]

theorem vecSet_length {v v1 : List F} {i : Int} {x : F} (h : vecSet v i x = some v1) :
    v1.length = v.length := by
  obtain ⟨_, _, rfl⟩ := vecSet_eq_some h
  simp

theorem vecGet_vecSet_self {v v1 : List F} {i : Int} {x : F} (h : vecSet v i x = some v1) :
    vecGet v1 i = some x := by
  obtain ⟨h0, h1, rfl⟩ := vecSet_eq_some h
  unfold vecGet
  rw [if_pos h0]
  have : i.toNat < v.length := by omega
  simp [List.get?_eq_getElem?, List.getElem?_set, this]

theorem vecGet_vecSet_ne {v v1 : List F} {i j : Int} {x : F} (h : vecSet v i x = some v1)
    (hij : j ≠ i) : vecGet v1 j = vecGet v j := by
  obtain ⟨h0, h1, rfl⟩ := vecSet_eq_some h
  unfold vecGet
  split_ifs with hj
  · have : i.toNat ≠ j.toNat := by omega
    simp [List.get?_eq_getElem?, List.getElem?_set, this]
  · rfl

theorem vecGet_of_lt (v : List F) {i : Int} (h0 : 0 ≤ i) (h1 : i < (v.length : Int)) :
    ∃ x, vecGet v i = some x := by
  unfold vecGet
  rw [if_pos h0]
  have : i.toNat < v.length := by omega
  exact ⟨v[i.toNat], by simp [List.get?_eq_getElem?, this]⟩

theorem vecGet_replicate (n : Nat) (a : F) {i : Int} (h0 : 0 ≤ i) (h1 : i < (n : Int)) :
    vecGet (List.replicate n a) i = some a := by
  unfold vecGet
  rw [if_pos h0]
  have : i.toNat < n := by omega
  simp [List.get?_eq_getElem?, List.getElem?_replicate, this]

end VectorAccess

section NumerovLoops

variable {F : Type} [LinearOrderedField F]

/-- The zeroing loop of lines 307-308 ends, keeps the length and the entries below its
start, and leaves `0` in the entries it visits. -/
theorem zeroFill_spec (highLimit : Int) :
    ∀ (fuel : Nat) (i : Int) (Psi : List F), 0 ≤ i → highLimit ≤ (Psi.length : Int) →
      highLimit - i ≤ (fuel : Int) →
      ∃ Psi1, zeroFill highLimit fuel i Psi = some Psi1 ∧ Psi1.length = Psi.length ∧
        (∀ j, j < i → vecGet Psi1 j = vecGet Psi j) ∧
        (∀ j, i ≤ j → j < highLimit → vecGet Psi1 j = some 0) := by
  intro fuel
  induction fuel with
  | zero =>
    intro i Psi _ _ hf
    have hi : ¬ i < highLimit := by push_cast at hf; omega
    exact ⟨Psi, by simp [zeroFill, hi], rfl, fun _ _ => rfl, fun j h1 h2 => by omega⟩
  | succ fuel ih =>
    intro i Psi h0 hlen hf
    by_cases hi : i < highLimit
    · obtain ⟨Psi1, hP1⟩ : ∃ Psi1, vecSet Psi i (0 : F) = some Psi1 :=
        ⟨_, vecSet_of_lt Psi 0 h0 (by omega)⟩
      have hl1 := vecSet_length hP1
      obtain ⟨Psi2, hz, hl2, hlow, hzero⟩ := ih (i + 1) Psi1 (by omega) (by omega)
        (by push_cast at hf; omega)
      refine ⟨Psi2, ?_, by omega, ?_, ?_⟩
      · simp only [zeroFill, hi, if_true, hP1, hz]
      · intro j hj
        rw [hlow j (by omega), vecGet_vecSet_ne hP1 (by omega)]
      · intro j hj1 hj2
        rcases eq_or_lt_of_le hj1 with rfl | hlt
        · rw [hlow _ (by omega), vecGet_vecSet_self hP1]
        · exact hzero j (by omega) hj2
    · exact ⟨Psi, by simp [zeroFill, hi], rfl, fun _ _ => rfl, fun j h1 h2 => by omega⟩

/-- The loop of lines 330-348 ends; it keeps the length and the entries outside
`1 .. i`, and the match point it leaves is the first index, counting down from `i`,
at which the test of line 343 holds, or the initial one when there is none. -/
theorem inwardLoop_spec (self : Numerov F) (l : Nat) (E : F) :
    ∀ (fuel : Nat) (i : Int) (s : MatchState F), i ≤ (fuel : Int) →
      i + 1 < (s.Psi.length : Int) →
      ∃ s1, inwardLoop self l E fuel i s = some s1 ∧ s1.Psi.length = s.Psi.length ∧
        (∀ j, (j ≤ 0 ∨ i < j) → vecGet s1.Psi j = vecGet s.Psi j) ∧
        ((s1.matchPoint = s.matchPoint ∧ ∀ j, 1 ≤ j → j ≤ i → continuesAt s1.Psi j) ∨
         (1 ≤ s1.matchPoint ∧ s1.matchPoint ≤ i ∧ breaksAt s1.Psi s1.matchPoint ∧
           ∀ j, s1.matchPoint < j → j ≤ i → continuesAt s1.Psi j)) := by
  intro fuel
  induction fuel with
  | zero =>
    intro i s hf _
    have hi : ¬ i > 0 := by push_cast at hf; omega
    exact ⟨s, by simp [inwardLoop, hi], rfl, fun _ _ => rfl,
      Or.inl ⟨rfl, fun j h1 h2 => by omega⟩⟩
  | succ fuel ih =>
    intro i s hf hlen
    by_cases hi : i > 0
    · obtain ⟨Psi1, hP1⟩ : ∃ Psi1, vecSet s.Psi i (self.getU
          (2 * s.w - s.wprev + self.h2 * s.solution * s.funcVal)
          (self.function.apply l E (self.h * (i : F)) i)) = some Psi1 :=
        ⟨_, vecSet_of_lt s.Psi _ (by omega) (by omega)⟩
      have hl1 := vecSet_length hP1
      obtain ⟨next, hnext⟩ := vecGet_of_lt Psi1 (i := i + 1) (by omega) (by omega)
      by_cases hc : self.getU (2 * s.w - s.wprev + self.h2 * s.solution * s.funcVal)
          (self.function.apply l E (self.h * (i : F)) i) < next ∨
          |self.getU (2 * s.w - s.wprev + self.h2 * s.solution * s.funcVal)
            (self.function.apply l E (self.h * (i : F)) i)| > 10 ^ 50
      · have hstep : inwardLoop self l E (fuel + 1) i s = some
            { Psi := Psi1
              solution := self.getU (2 * s.w - s.wprev + self.h2 * s.solution * s.funcVal)
                (self.function.apply l E (self.h * (i : F)) i)
              funcVal := self.function.apply l E (self.h * (i : F)) i
              wprev := s.w
              w := 2 * s.w - s.wprev + self.h2 * s.solution * s.funcVal
              matchPoint := i } := by
          simp only [inwardLoop, hi, if_true, hP1, hnext, hc]
        refine ⟨_, hstep, hl1, ?_, Or.inr ?_⟩
        · intro j hj
          exact vecGet_vecSet_ne hP1 (by omega)
        · exact ⟨by simp only; omega, le_refl _,
            ⟨_, _, vecGet_vecSet_self hP1, hnext, hc⟩, fun j h1 h2 => by simp only at h1; omega⟩
      · obtain ⟨s1, hs1, hl2, hframe, hchar⟩ := ih (i - 1)
          { Psi := Psi1
            solution := self.getU (2 * s.w - s.wprev + self.h2 * s.solution * s.funcVal)
              (self.function.apply l E (self.h * (i : F)) i)
            funcVal := self.function.apply l E (self.h * (i : F)) i
            wprev := s.w
            w := 2 * s.w - s.wprev + self.h2 * s.solution * s.funcVal
            matchPoint := s.matchPoint }
          (by push_cast at hf; omega) (by simp only; omega)
        simp only at hl2 hframe hchar
        have hcont : continuesAt s1.Psi i :=
          ⟨_, _, by rw [hframe i (by omega)]; exact vecGet_vecSet_self hP1,
            by rw [hframe (i + 1) (by omega)]; exact hnext, hc⟩
        refine ⟨s1, by simp only [inwardLoop, hi, if_true, hP1, hnext, hc, if_false, hs1],
          by omega, ?_, ?_⟩
        · intro j hj
          rw [hframe j (by omega), vecGet_vecSet_ne hP1 (by omega)]
        · rcases hchar with ⟨hm, hall⟩ | ⟨hm1, hm2, hbr, hall⟩
          · refine Or.inl ⟨hm, fun j h1 h2 => ?_⟩
            rcases eq_or_lt_of_le h2 with rfl | hlt
            · exact hcont
            · exact hall j h1 (by omega)
          · refine Or.inr ⟨hm1, by omega, hbr, fun j h1 h2 => ?_⟩
            rcases eq_or_lt_of_le h2 with rfl | hlt
            · exact hcont
            · exact hall j h1 (by omega)
    · exact ⟨s, by simp [inwardLoop, hi], rfl, fun _ _ => rfl,
        Or.inl ⟨rfl, fun j h1 h2 => by omega⟩⟩

/-- The loop of lines 359-370 ends; it keeps the length, the match point and the
entries outside `i .. matchPoint - 1`. -/
theorem outwardLoop_spec (self : Numerov F) (l : Nat) (E : F) :
    ∀ (fuel : Nat) (i : Int) (s : MatchState F), s.matchPoint - i ≤ (fuel : Int) → 0 ≤ i →
      s.matchPoint ≤ (s.Psi.length : Int) →
      ∃ t, outwardLoop self l E fuel i s = some t ∧ t.Psi.length = s.Psi.length ∧
        t.matchPoint = s.matchPoint ∧
        (∀ j, (j < i ∨ s.matchPoint ≤ j) → vecGet t.Psi j = vecGet s.Psi j) := by
  intro fuel
  induction fuel with
  | zero =>
    intro i s hf _ _
    have hi : ¬ i < s.matchPoint := by push_cast at hf; omega
    exact ⟨s, by simp [outwardLoop, hi], rfl, rfl, fun _ _ => rfl⟩
  | succ fuel ih =>
    intro i s hf h0 hlen
    by_cases hi : i < s.matchPoint
    · obtain ⟨Psi1, hP1⟩ : ∃ Psi1, vecSet s.Psi i (self.getU
          (2 * s.w - s.wprev + self.h2 * s.solution * s.funcVal)
          (self.function.apply l E (self.h * (i : F)) i)) = some Psi1 :=
        ⟨_, vecSet_of_lt s.Psi _ (by omega) (by omega)⟩
      have hl1 := vecSet_length hP1
      obtain ⟨t, ht, hl2, hm, hframe⟩ := ih (i + 1)
        { Psi := Psi1
          solution := self.getU (2 * s.w - s.wprev + self.h2 * s.solution * s.funcVal)
            (self.function.apply l E (self.h * (i : F)) i)
          funcVal := self.function.apply l E (self.h * (i : F)) i
          wprev := s.w
          w := 2 * s.w - s.wprev + self.h2 * s.solution * s.funcVal
          matchPoint := s.matchPoint }
        (by push_cast at hf; simp only; omega) (by omega) (by simp only; omega)
      simp only at hl2 hm hframe
      refine ⟨t, by simp only [outwardLoop, hi, if_true, hP1, ht], by omega, hm, ?_⟩
      intro j hj
      rw [hframe j (by omega), vecGet_vecSet_ne hP1 (by omega)]
    · exact ⟨s, by simp [outwardLoop, hi], rfl, rfl, fun _ _ => rfl⟩

/-- The loop of lines 380-381 ends; it keeps the length and the entries outside
`i .. size - 1`, and multiplies each entry inside by `factor`. -/
theorem rescaleLoop_spec (factor : F) (size : Int) :
    ∀ (fuel : Nat) (i : Int) (Psi : List F), size - i ≤ (fuel : Int) → 0 ≤ i →
      size ≤ (Psi.length : Int) →
      ∃ Psi1, rescaleLoop factor size fuel i Psi = some Psi1 ∧ Psi1.length = Psi.length ∧
        (∀ j, (j < i ∨ size ≤ j) → vecGet Psi1 j = vecGet Psi j) ∧
        (∀ j, i ≤ j → j < size → vecGet Psi1 j = (vecGet Psi j).map fun x => x * factor) := by
  intro fuel
  induction fuel with
  | zero =>
    intro i Psi hf _ _
    have hi : ¬ i < size := by push_cast at hf; omega
    exact ⟨Psi, by simp [rescaleLoop, hi], rfl, fun _ _ => rfl, fun j h1 h2 => by omega⟩
  | succ fuel ih =>
    intro i Psi hf h0 hlen
    by_cases hi : i < size
    · obtain ⟨x, hx⟩ := vecGet_of_lt Psi (i := i) h0 (by omega)
      obtain ⟨Psi1, hP1⟩ : ∃ Psi1, vecSet Psi i (x * factor) = some Psi1 :=
        ⟨_, vecSet_of_lt Psi _ h0 (by omega)⟩
      have hl1 := vecSet_length hP1
      obtain ⟨Psi2, hr, hl2, hframe, hmul⟩ := ih (i + 1) Psi1 (by push_cast at hf; omega)
        (by omega) (by omega)
      refine ⟨Psi2, by simp only [rescaleLoop, hi, if_true, hx, hP1, hr], by omega, ?_, ?_⟩
      · intro j hj
        rw [hframe j (by omega), vecGet_vecSet_ne hP1 (by omega)]
      · intro j h1 h2
        rcases eq_or_lt_of_le h1 with rfl | hlt
        · rw [hframe _ (by omega), vecGet_vecSet_self hP1, hx]
          rfl
        · rw [hmul j (by omega) h2, vecGet_vecSet_ne hP1 (by omega)]
    · exact ⟨Psi, by simp [rescaleLoop, hi], rfl, fun _ _ => rfl, fun j h1 h2 => by omega⟩

/-- Lines 317-348 succeed on a vector with more than `steps` entries when `steps ≥ 2`:
the two far-end values are stored at `steps` and `steps - 1`, the entries at `0` and
above `steps` are kept, and the match point is the first index, counting down from
`steps - 2` to `1`, at which the test of line 343 holds, or `2` when there is none. -/
theorem inwardPass_spec (self : Numerov F) (startPoint : F) (l : Nat) (E : F) (steps : Int)
    (Psi : List F) (hS : 2 ≤ steps) (hlen : steps < (Psi.length : Int)) :
    ∃ s, inwardPass self startPoint l E steps Psi = some s ∧ s.Psi.length = Psi.length ∧
      (∀ j, (j ≤ 0 ∨ steps < j) → vecGet s.Psi j = vecGet Psi j) ∧
      vecGet s.Psi steps = some (self.function.GetBoundaryValueFar startPoint E) ∧
      vecGet s.Psi (steps - 1) =
        some (self.function.GetBoundaryValueFar (startPoint - self.h) E) ∧
      ((s.matchPoint = 2 ∧ ∀ j, 1 ≤ j → j ≤ steps - 2 → continuesAt s.Psi j) ∨
       (1 ≤ s.matchPoint ∧ s.matchPoint ≤ steps - 2 ∧ breaksAt s.Psi s.matchPoint ∧
         ∀ j, s.matchPoint < j → j ≤ steps - 2 → continuesAt s.Psi j)) := by
  obtain ⟨Psi1, hP1⟩ : ∃ Psi1, vecSet Psi steps
      (self.function.GetBoundaryValueFar startPoint E) = some Psi1 :=
    ⟨_, vecSet_of_lt Psi _ (by omega) hlen⟩
  have hl1 := vecSet_length hP1
  obtain ⟨Psi2, hP2⟩ : ∃ Psi2, vecSet Psi1 (steps - 1)
      (self.function.GetBoundaryValueFar (startPoint - self.h) E) = some Psi2 :=
    ⟨_, vecSet_of_lt Psi1 _ (by omega) (by omega)⟩
  have hl2 := vecSet_length hP2
  obtain ⟨s, hs, hl3, hframe, hchar⟩ := inwardLoop_spec self l E (steps - 2).toNat (steps - 2)
    { Psi := Psi2
      solution := self.function.GetBoundaryValueFar (startPoint - self.h) E
      funcVal := self.function.apply l E (startPoint - self.h) (steps - 1)
      wprev := (1 - self.h2p12 * self.function.apply l E startPoint steps) *
        self.function.GetBoundaryValueFar startPoint E
      w := (1 - self.h2p12 * self.function.apply l E (startPoint - self.h) (steps - 1)) *
        self.function.GetBoundaryValueFar (startPoint - self.h) E
      matchPoint := 2 }
    (by omega) (by simp only; omega)
  simp only at hl3 hframe hchar
  refine ⟨s, ?_, by omega, ?_, ?_, ?_, hchar⟩
  · unfold inwardPass
    simp only [hP1, hP2]
    exact hs
  · intro j hj
    rw [hframe j (by omega), vecGet_vecSet_ne hP2 (by omega), vecGet_vecSet_ne hP1 (by omega)]
  · rw [hframe steps (by omega), vecGet_vecSet_ne hP2 (by omega), vecGet_vecSet_self hP1]
  · rw [hframe (steps - 1) (by omega), vecGet_vecSet_self hP2]

/-- Lines 350-370 succeed when the match point lies between `1` and the length of the
vector, which has at least two entries: entry `0` becomes `0`, entry `1` the boundary
value at the origin side, and the entries from `max 2 matchPoint` on are kept. -/
theorem outwardPass_spec (self : Numerov F) (l : Nat) (E : F) (s : MatchState F)
    (hlen : 2 ≤ (s.Psi.length : Int)) (hm : s.matchPoint ≤ (s.Psi.length : Int)) :
    ∃ t, outwardPass self l E s = some t ∧ t.Psi.length = s.Psi.length ∧
      t.matchPoint = s.matchPoint ∧ vecGet t.Psi 0 = some 0 ∧
      vecGet t.Psi 1 = some (self.function.GetBoundaryValueZero (0 + self.h) (l : Int)) ∧
      (∀ j, 2 ≤ j → s.matchPoint ≤ j → vecGet t.Psi j = vecGet s.Psi j) := by
  obtain ⟨Psi1, hP1⟩ : ∃ Psi1, vecSet s.Psi 0 (0 : F) = some Psi1 :=
    ⟨_, vecSet_of_lt s.Psi _ (by omega) (by omega)⟩
  have hl1 := vecSet_length hP1
  obtain ⟨Psi2, hP2⟩ : ∃ Psi2, vecSet Psi1 1
      (self.function.GetBoundaryValueZero (0 + self.h) (l : Int)) = some Psi2 :=
    ⟨_, vecSet_of_lt Psi1 _ (by omega) (by omega)⟩
  have hl2 := vecSet_length hP2
  obtain ⟨t, ht, hl3, hmt, hframe⟩ := outwardLoop_spec self l E (s.matchPoint - 2).toNat 2
    { Psi := Psi2
      solution := self.function.GetBoundaryValueZero (0 + self.h) (l : Int)
      funcVal := self.function.apply l E (0 + self.h) 1
      wprev := 0
      w := (1 - self.h2p12 * self.function.apply l E (0 + self.h) 1) *
        self.function.GetBoundaryValueZero (0 + self.h) (l : Int)
      matchPoint := s.matchPoint }
    (by simp only; omega) (by omega) (by simp only; omega)
  simp only at hl3 hmt hframe
  refine ⟨t, ?_, by omega, hmt, ?_, ?_, ?_⟩
  · unfold outwardPass
    simp only [hP1, hP2]
    exact ht
  · rw [hframe 0 (by omega), vecGet_vecSet_ne hP2 (by omega), vecGet_vecSet_self hP1]
  · rw [hframe 1 (by omega), vecGet_vecSet_self hP2]
  · intro j h2 hj
    rw [hframe j (by omega), vecGet_vecSet_ne hP2 (by omega), vecGet_vecSet_ne hP1 (by omega)]

/-- Lines 372-381 succeed when `0 ≤ matchPoint < size ≤` the length of the vector: the
entry at the match point becomes `matchValue`, the entries above it and below `size` are
multiplied by `matchValue` over the former entry at the match point, the others are kept. -/
theorem joinPass_spec (self : Numerov F) (l : Nat) (E : F) (size : Int) (t : MatchState F)
    (hm0 : 0 ≤ t.matchPoint) (hm : t.matchPoint < size) (hsize : size ≤ (t.Psi.length : Int)) :
    ∃ Psi1 atMatch, vecGet t.Psi t.matchPoint = some atMatch ∧
      joinPass self l E size t = some Psi1 ∧ Psi1.length = t.Psi.length ∧
      vecGet Psi1 t.matchPoint = some (matchValue self l E t) ∧
      (∀ j, (j < t.matchPoint ∨ size ≤ j) → vecGet Psi1 j = vecGet t.Psi j) ∧
      (∀ j, t.matchPoint < j → j < size →
        vecGet Psi1 j = (vecGet t.Psi j).map fun x => x * (matchValue self l E t / atMatch)) := by
  obtain ⟨atMatch, hat⟩ := vecGet_of_lt t.Psi (i := t.matchPoint) hm0 (by omega)
  obtain ⟨Psi1, hP1⟩ : ∃ Psi1, vecSet t.Psi t.matchPoint (matchValue self l E t) = some Psi1 :=
    ⟨_, vecSet_of_lt t.Psi _ hm0 (by omega)⟩
  have hl1 := vecSet_length hP1
  obtain ⟨Psi2, hr, hl2, hframe, hmul⟩ := rescaleLoop_spec (matchValue self l E t / atMatch)
    size (size - (t.matchPoint + 1)).toNat (t.matchPoint + 1) Psi1 (by omega) (by omega)
    (by omega)
  refine ⟨Psi2, atMatch, hat, ?_, by omega, ?_, ?_, ?_⟩
  · unfold joinPass
    simp only [hat, hP1]
    exact hr
  · rw [hframe _ (by omega), vecGet_vecSet_self hP1]
  · intro j hj
    rcases hj with hj | hj
    · rw [hframe j (by omega), vecGet_vecSet_ne hP1 (by omega)]
    · rw [hframe j (by omega), vecGet_vecSet_ne hP1 (by omega)]
  · intro j h1 h2
    rw [hmul j (by omega) h2, vecGet_vecSet_ne hP1 (by omega)]

end NumerovLoops

section NumerovProps

variable {F : Type} [LinearOrderedField F] [FloorRing F]

/-- When the grid's maximum radius is not negative, a capped step count of at least
`2` never exceeds the step count of the call. -/
theorem cappedSteps_le (self : Numerov F) (startPoint E : F) (steps : Int)
    (hS : 2 ≤ cappedSteps self startPoint E steps)
    (hgrid : 0 ≤ self.function.GetMaxRadius E) :
    cappedSteps self startPoint E steps ≤ steps := by
  unfold cappedSteps capRange at *
  split_ifs at hS ⊢ with hsent
  · simp only [truncToInt_intCast] at hS ⊢
    have : truncToInt startPoint = steps := by rw [hsent, truncToInt_intCast]
    have := min_le_left (truncToInt startPoint) (self.function.GetMaxRadiusIndex E)
    omega
  · simp only at hS ⊢
    have hq := le_of_two_le_truncToInt hS
    have hqpos : 0 < min startPoint (self.function.GetMaxRadius E) / (startPoint / steps) :=
      lt_of_lt_of_le (by norm_num) hq
    rcases le_or_lt startPoint 0 with hsp | hsp
    · have hmin : min startPoint (self.function.GetMaxRadius E) = startPoint :=
        min_eq_left (le_trans hsp hgrid)
      rw [hmin] at hqpos ⊢
      have hsp0 : startPoint ≠ 0 := by
        rintro rfl
        simp at hqpos
      have hst0 : (steps : F) ≠ 0 := by
        intro h0
        rw [h0] at hqpos
        simp at hqpos
      have : startPoint / (startPoint / (steps : F)) = (steps : F) := by
        field_simp
      rw [this, truncToInt_intCast]
    · have hmin_le := min_le_left startPoint (self.function.GetMaxRadius E)
      have hmin_nonneg : 0 ≤ min startPoint (self.function.GetMaxRadius E) :=
        le_min (le_of_lt hsp) hgrid
      have hhpos : 0 < startPoint / (steps : F) := by
        by_contra hcon
        have := div_nonpos_of_nonneg_of_nonpos hmin_nonneg (not_lt.mp hcon)
        exact absurd hqpos (not_lt.mpr this)
      have hstpos : (0 : F) < (steps : F) := by
        by_contra hcon
        have := div_nonpos_of_nonneg_of_nonpos (le_of_lt hsp) (not_lt.mp hcon)
        exact absurd hhpos (not_lt.mpr this)
      have hle : min startPoint (self.function.GetMaxRadius E) / (startPoint / (steps : F))
          ≤ (steps : F) := by
        rw [div_le_iff₀ hhpos]
        calc min startPoint (self.function.GetMaxRadius E) ≤ startPoint := hmin_le
          _ = (steps : F) * (startPoint / (steps : F)) := by field_simp
      exact truncToInt_le_of_nonneg (le_of_lt hqpos) hle

/-- Lines 286-314 succeed when the capped step count lies between `0` and `steps`:
the vector has `steps + 1` entries, all of them `0`. -/
theorem matchSetup_spec (self : Numerov F) (startPoint E : F) (steps : Int)
    (hS : 0 ≤ cappedSteps self startPoint E steps)
    (hle : cappedSteps self startPoint E steps ≤ steps) :
    ∃ Psi, matchSetup self startPoint E steps =
        some (matchSolver self startPoint E steps, cappedStart self startPoint E steps,
          cappedSteps self startPoint E steps, Psi) ∧
      (Psi.length : Int) = steps + 1 ∧
      ∀ j, 0 ≤ j → j ≤ steps → vecGet Psi j = some 0 := by
  have hhl : ¬ steps + 1 < 0 := by omega
  have hlen0 : ((List.replicate (steps + 1).toNat (0 : F)).length : Int) = steps + 1 := by
    simp only [List.length_replicate]; omega
  obtain ⟨Psi1, hz, hl1, hlow, hzero⟩ := zeroFill_spec (F := F) (steps + 1)
    (steps + 1 - (cappedSteps self startPoint E steps + 1)).toNat
    (cappedSteps self startPoint E steps + 1) (List.replicate (steps + 1).toNat (0 : F))
    (by omega) (by omega) (by omega)
  refine ⟨Psi1, ?_, by omega, ?_⟩
  · unfold matchSetup
    simp only [hhl, if_false]
    unfold cappedSteps at hz
    rw [hz]
    rfl
  · intro j h0 h1
    rcases lt_or_le j (cappedSteps self startPoint E steps + 1) with h | h
    · rw [hlow j h]
      exact vecGet_replicate _ _ h0 (by omega)
    · exact hzero j h (by omega)

/-- The whole of `SolveSchrodingerMatchSolutionCompletely` when the capped step count
`S` satisfies `2 ≤ S ≤ steps`: every stage succeeds, and the vector returned is
described entry by entry from the state `s` after line 348 and the state `t` after
line 370. -/
theorem solve_run (self : Numerov F) (startPoint : F) (l : Nat) (E : F) (steps : Int)
    (hS : 2 ≤ cappedSteps self startPoint E steps)
    (hle : cappedSteps self startPoint E steps ≤ steps) :
    ∃ s t r atMatch,
      inwardResult self startPoint l E steps = some s ∧
      outwardPass (matchSolver self startPoint E steps) l E s = some t ∧
      SolveSchrodingerMatchSolutionCompletely self startPoint l E steps = some r ∧
      r.matchPoint = s.matchPoint ∧ t.matchPoint = s.matchPoint ∧
      r.self = matchSolver self startPoint E steps ∧
      (r.Psi.length : Int) = steps + 1 ∧
      ((s.matchPoint = 2 ∧
          ∀ j, 1 ≤ j → j ≤ cappedSteps self startPoint E steps - 2 → continuesAt s.Psi j) ∨
       (1 ≤ s.matchPoint ∧ s.matchPoint ≤ cappedSteps self startPoint E steps - 2 ∧
          breaksAt s.Psi s.matchPoint ∧
          ∀ j, s.matchPoint < j → j ≤ cappedSteps self startPoint E steps - 2 →
            continuesAt s.Psi j)) ∧
      vecGet t.Psi s.matchPoint = some atMatch ∧
      (2 ≤ s.matchPoint → vecGet s.Psi s.matchPoint = some atMatch) ∧
      (s.matchPoint = 1 → atMatch = (matchSolver self startPoint E steps).function.GetBoundaryValueZero
        (0 + (matchSolver self startPoint E steps).h) (l : Int)) ∧
      vecGet r.Psi 0 = some 0 ∧
      vecGet r.Psi s.matchPoint = some (matchValue (matchSolver self startPoint E steps) l E t) ∧
      (∀ j, 1 ≤ j → j < s.matchPoint → vecGet r.Psi j = vecGet t.Psi j) ∧
      (∀ j, s.matchPoint < j → j ≤ cappedSteps self startPoint E steps →
        vecGet r.Psi j = (vecGet s.Psi j).map fun x =>
          x * (matchValue (matchSolver self startPoint E steps) l E t / atMatch)) ∧
      (∀ j, cappedSteps self startPoint E steps < j → j ≤ steps → vecGet r.Psi j = some 0) := by
  obtain ⟨Psi0, hsetup, hl0, hzero⟩ := matchSetup_spec self startPoint E steps (by omega) hle
  obtain ⟨s, hs, hls, hsframe, -, -, hchar⟩ := inwardPass_spec
    (matchSolver self startPoint E steps) (cappedStart self startPoint E steps) l E
    (cappedSteps self startPoint E steps) Psi0 hS (by omega)
  have hm1 : 1 ≤ s.matchPoint := by rcases hchar with ⟨h, -⟩ | ⟨h, -⟩ <;> omega
  have hmS : s.matchPoint ≤ cappedSteps self startPoint E steps := by
    rcases hchar with ⟨h, -⟩ | ⟨-, h, -⟩ <;> omega
  obtain ⟨t, ht, hlt, hmt, ht0, ht1, htframe⟩ := outwardPass_spec
    (matchSolver self startPoint E steps) l E s (by omega) (by omega)
  obtain ⟨Psi1, atMatch, hat, hj, hl1, hjm, hjframe, hjmul⟩ := joinPass_spec
    (matchSolver self startPoint E steps) l E (cappedSteps self startPoint E steps + 1) t
    (by omega) (by omega) (by omega)
  rw [hmt] at hat hjm hjframe hjmul
  have hin : inwardResult self startPoint l E steps = some s := by
    unfold inwardResult
    simp only [hsetup]
    exact hs
  refine ⟨s, t, { Psi := Psi1, matchPoint := t.matchPoint, self := matchSolver self startPoint E steps },
    atMatch, hin, ht, ?_, hmt, hmt, rfl, by simp only; omega, hchar, hat, ?_, ?_, ?_, hjm, ?_, ?_,
    ?_⟩
  · unfold SolveSchrodingerMatchSolutionCompletely
    simp only [hsetup, hs, ht, hj]
  · intro h2
    rw [← htframe _ h2 (le_refl _)]
    exact hat
  · intro h1
    rw [h1, ht1] at hat
    exact (Option.some.inj hat).symm
  · simp only
    rw [hjframe 0 (by omega)]
    exact ht0
  · intro j h1 h2
    exact hjframe j (Or.inl h2)
  · intro j h1 h2
    simp only
    rw [hjmul j h1 (by omega), htframe j (by omega) (by omega)]
  · intro j h1 h2
    simp only
    rw [hjframe j (by omega), htframe j (by omega) (by omega), hsframe j (by omega)]
    exact hzero j (by omega) h2

/-- C8: when the capped step count is at least `2` (and the grid's maximum radius is
not negative, as for the grids of the repository), the call returns a vector with
exactly `steps + 1` entries, `steps` being the value passed by the caller; its entry at
index `0` is `0`, and the match index is at least `1`. -/
theorem SolveMatch_length_and_origin (self : Numerov F) (startPoint : F) (l : Nat) (E : F)
    (steps : Int) (hS : 2 ≤ cappedSteps self startPoint E steps)
    (hgrid : 0 ≤ self.function.GetMaxRadius E) :
    ∃ r, SolveSchrodingerMatchSolutionCompletely self startPoint l E steps = some r ∧
      (r.Psi.length : Int) = steps + 1 ∧ vecGet r.Psi 0 = some 0 ∧ 1 ≤ r.matchPoint := by
  obtain ⟨s, t, r, atMatch, -, -, hr, hm, -, -, hlen, hchar, -, -, -, h0, -⟩ :=
    solve_run self startPoint l E steps hS (cappedSteps_le self startPoint E steps hS hgrid)
  refine ⟨r, hr, hlen, h0, ?_⟩
  rcases hchar with ⟨h, -⟩ | ⟨h, -⟩ <;> omega

/-- The part of C9 that holds: when the match index `m` is at least `2`, every entry of
the returned vector at an index `i` with `m < i ≤ S` is the value `a` stored there by
the integration from the far end, times the returned entry `c` at `m`, over the value
`b` stored at `m` by the integration from the far end. -/
theorem rescale_of_two_le_matchPoint (self : Numerov F) (startPoint : F) (l : Nat) (E : F)
    (steps : Int) (hS : 2 ≤ cappedSteps self startPoint E steps)
    (hgrid : 0 ≤ self.function.GetMaxRadius E) :
    ∃ s r c, inwardResult self startPoint l E steps = some s ∧
      SolveSchrodingerMatchSolutionCompletely self startPoint l E steps = some r ∧
      r.matchPoint = s.matchPoint ∧ vecGet r.Psi r.matchPoint = some c ∧
      (2 ≤ r.matchPoint → ∃ b, vecGet s.Psi r.matchPoint = some b ∧
        ∀ i, r.matchPoint < i → i ≤ cappedSteps self startPoint E steps →
          ∃ a, vecGet s.Psi i = some a ∧ vecGet r.Psi i = some (a * c / b)) := by
  obtain ⟨s, t, r, atMatch, hs, -, hr, hm, -, -, hlen, hchar, -, hin, -, -, hc, -, hmul, -⟩ :=
    solve_run self startPoint l E steps hS (cappedSteps_le self startPoint E steps hS hgrid)
  have hle := cappedSteps_le self startPoint E steps hS hgrid
  obtain ⟨Psi0, hsetup, hl0, -⟩ := matchSetup_spec self startPoint E steps (by omega) hle
  have hslen : (s.Psi.length : Int) = steps + 1 := by
    obtain ⟨s1, hs1, hls, -⟩ := inwardPass_spec
      (matchSolver self startPoint E steps) (cappedStart self startPoint E steps) l E
      (cappedSteps self startPoint E steps) Psi0 hS (by omega)
    have : inwardResult self startPoint l E steps = some s1 := by
      unfold inwardResult
      simp only [hsetup]
      exact hs1
    rw [hs] at this
    obtain rfl := Option.some.inj this
    omega
  refine ⟨s, r, _, hs, hr, hm, by rw [hm]; exact hc, ?_⟩
  intro h2
  rw [hm] at h2 ⊢
  refine ⟨atMatch, hin h2, ?_⟩
  intro i hi1 hi2
  obtain ⟨a, ha⟩ := vecGet_of_lt s.Psi (i := i) (by omega) (by omega)
  refine ⟨a, ha, ?_⟩
  rw [hmul i hi1 hi2, ha]
  simp only [Option.map_some', mul_div_assoc]

/-- What the code does when the match index is `1`: the entries above it are the
values `a` stored by the integration from the far end times the returned entry `c` at
index `1`, over the boundary value at the origin side, `GetBoundaryValueZero(h, l)`,
which line 355 has written over the entry `1` of the integration from the far end. -/
theorem rescale_of_matchPoint_one (self : Numerov F) (startPoint : F) (l : Nat) (E : F)
    (steps : Int) (hS : 2 ≤ cappedSteps self startPoint E steps)
    (hle : cappedSteps self startPoint E steps ≤ steps) :
    ∃ s r c, inwardResult self startPoint l E steps = some s ∧
      SolveSchrodingerMatchSolutionCompletely self startPoint l E steps = some r ∧
      r.matchPoint = s.matchPoint ∧ vecGet r.Psi r.matchPoint = some c ∧
      (r.matchPoint = 1 →
        ∀ i, 1 < i → i ≤ cappedSteps self startPoint E steps →
          vecGet r.Psi i = (vecGet s.Psi i).map fun a =>
            a * (c / (matchSolver self startPoint E steps).function.GetBoundaryValueZero
              (0 + (matchSolver self startPoint E steps).h) (l : Int))) := by
  obtain ⟨s, t, r, atMatch, hs, -, hr, hm, -, -, -, -, -, -, hone, -, hc, -, hmul, -⟩ :=
    solve_run self startPoint l E steps hS hle
  refine ⟨s, r, _, hs, hr, hm, by rw [hm]; exact hc, ?_⟩
  intro h1 i hi1 hi2
  rw [hm] at h1
  rw [hmul i (by omega) hi2, hone h1]

/-- C9 fails when the match index is `1`: on the sample grid, for the call with
`startPoint = 3`, `l = 0`, `E = -1/2`, `steps = 3`, the match index is `1`, the
integration from the far end stored `b = 17/156` at index `1` and `a = 1/3` at index `2`,
the returned entries are `c = 14/13` at index `1` and `d = 14/39` at index `2`, and `d`
is not `a * c / b`. -/
theorem rescale_at_matchPoint_one :
    ∃ s r, inwardResult sampleSolver 3 0 (-1 / 2) 3 = some s ∧
      SolveSchrodingerMatchSolutionCompletely sampleSolver 3 0 (-1 / 2) 3 = some r ∧
      cappedSteps sampleSolver 3 (-1 / 2) 3 = 3 ∧ r.matchPoint = 1 ∧
      s.Psi = [0, 17 / 156, 1 / 3, 1 / 4] ∧ r.Psi = [0, 14 / 13, 14 / 39, 7 / 26] ∧
      (14 / 39 : ℚ) ≠ (1 / 3) * (14 / 13) / (17 / 156) ∧
      (14 / 39 : ℚ) = (1 / 3) * ((14 / 13) / sampleGrid.GetBoundaryValueZero 1 0) := by
  have h1 : (inwardResult sampleSolver 3 0 (-1 / 2) 3).map (fun s => s.Psi) =
      some [0, 17 / 156, 1 / 3, 1 / 4] := by decide!
  have h2 : (SolveSchrodingerMatchSolutionCompletely sampleSolver 3 0 (-1 / 2) 3).map
      (fun r => (r.Psi, r.matchPoint)) = some ([0, 14 / 13, 14 / 39, 7 / 26], 1) := by decide!
  cases hs : inwardResult sampleSolver 3 0 (-1 / 2) 3 with
  | none => rw [hs] at h1; simp at h1
  | some s =>
    cases hr : SolveSchrodingerMatchSolutionCompletely sampleSolver 3 0 (-1 / 2) 3 with
    | none => rw [hr] at h2; simp at h2
    | some r =>
      rw [hs] at h1
      rw [hr] at h2
      simp only [Option.map_some', Option.some.injEq, Prod.mk.injEq] at h1 h2
      exact ⟨s, r, rfl, rfl, by decide!, h2.2, h1, h2.1, by decide!, by decide!⟩

/-- C10 fails as stated: on the sample grid, for the call with `startPoint = 6`, `l = 0`,
`E = -1/2`, `steps = 6`, the returned match index is `4`, while the values of the
integration from the origin first drop in magnitude at index `3` (and grow again at
`4`).  Two more calls show what the index follows instead: with `startPoint = 12`,
`E = -30`, `steps = 12` the index `3` is returned, where the value stored by the
integration from the far side is below the one at index `4` but larger in magnitude;
with `startPoint = 6`, `E = -2`, `steps = 6` the values of the integration from the
origin never drop and stay below `10 ^ 50`, and `2` is returned. -/
theorem matchPoint_not_from_outward :
    ((SolveSchrodingerMatchSolutionCompletely sampleSolver 6 0 (-1 / 2) 6).map
        (fun r => r.matchPoint) = some 4 ∧
      outwardValues (matchSolver sampleSolver 6 (-1 / 2) 6) 0 (-1 / 2) 6 =
        some [0, 1, 14 / 13, 27 / 169, -1988 / 2197, -32395 / 28561, -117558 / 371293] ∧
      (outwardValues (matchSolver sampleSolver 6 (-1 / 2) 6) 0 (-1 / 2) 6).map specMatchIndex =
        some (some 3)) ∧
    ((inwardResult sampleSolver 12 0 (-30) 12).map (fun s => (s.Psi.take 6, s.matchPoint)) =
        some ([0, 0, 0, -96445 / 1668443, 1 / 241, 1 / 301], 3) ∧
      (SolveSchrodingerMatchSolutionCompletely sampleSolver 12 0 (-30) 12).map
        (fun r => r.matchPoint) = some 3 ∧
      ¬ (|(-96445 / 1668443 : ℚ)| < |(1 / 241 : ℚ)|)) ∧
    ((SolveSchrodingerMatchSolutionCompletely sampleSolver 6 0 (-2) 6).map
        (fun r => r.matchPoint) = some 2 ∧
      (outwardValues (matchSolver sampleSolver 6 (-2) 6) 0 (-2) 6).map specMatchIndex =
        some none) := by
  refine ⟨⟨?_, ?_, ?_⟩, ⟨?_, ?_, ?_⟩, ⟨?_, ?_⟩⟩ <;> decide!

/-- C10, amended: the returned match index is the one left by the integration that
starts at the far end.  With `s` the state after that integration, it is the first
index `m`, counting down from `S - 2` to `1`, whose stored value is smaller than the
value stored at `m + 1` or exceeds `10 ^ 50` in magnitude; when there is no such index
it is `2`. -/
theorem matchPoint_from_inward (self : Numerov F) (startPoint : F) (l : Nat) (E : F)
    (steps : Int) (hS : 2 ≤ cappedSteps self startPoint E steps)
    (hgrid : 0 ≤ self.function.GetMaxRadius E) :
    ∃ s r, inwardResult self startPoint l E steps = some s ∧
      SolveSchrodingerMatchSolutionCompletely self startPoint l E steps = some r ∧
      r.matchPoint = s.matchPoint ∧
      ((r.matchPoint = 2 ∧
          ∀ j, 1 ≤ j → j ≤ cappedSteps self startPoint E steps - 2 → continuesAt s.Psi j) ∨
       (1 ≤ r.matchPoint ∧ r.matchPoint ≤ cappedSteps self startPoint E steps - 2 ∧
          breaksAt s.Psi r.matchPoint ∧
          ∀ j, r.matchPoint < j → j ≤ cappedSteps self startPoint E steps - 2 →
            continuesAt s.Psi j)) := by
  obtain ⟨s, t, r, atMatch, hs, -, hr, hm, -, -, -, hchar, -⟩ :=
    solve_run self startPoint l E steps hS (cappedSteps_le self startPoint E steps hS hgrid)
  refine ⟨s, r, hs, hr, hm, ?_⟩
  rw [hm]
  exact hchar

end NumerovProps

/-- Witness for C8: a call on the sample grid whose capped step count `5` is below the
`steps = 12` of the call. -/
theorem SolveMatch_length_and_origin_witness :
    2 ≤ cappedSteps sampleSolver 12 (-30) 12 ∧
    (0 : ℚ) ≤ sampleSolver.function.GetMaxRadius (-30) ∧
    ∃ r, SolveSchrodingerMatchSolutionCompletely sampleSolver 12 0 (-30) 12 = some r ∧
      (r.Psi.length : Int) = 12 + 1 ∧ vecGet r.Psi 0 = some 0 ∧ 1 ≤ r.matchPoint :=
  ⟨by decide!, by decide!,
    SolveMatch_length_and_origin sampleSolver 12 0 (-30) 12 (by decide!) (by decide!)⟩

/-- Witness for the part of C9 that holds, on the sample grid. -/
theorem rescale_of_two_le_matchPoint_witness :
    2 ≤ cappedSteps sampleSolver 6 (-1 / 2) 6 ∧
    (0 : ℚ) ≤ sampleSolver.function.GetMaxRadius (-1 / 2) ∧
    ∃ s r c, inwardResult sampleSolver 6 0 (-1 / 2) 6 = some s ∧
      SolveSchrodingerMatchSolutionCompletely sampleSolver 6 0 (-1 / 2) 6 = some r ∧
      r.matchPoint = s.matchPoint ∧ vecGet r.Psi r.matchPoint = some c ∧
      (2 ≤ r.matchPoint → ∃ b, vecGet s.Psi r.matchPoint = some b ∧
        ∀ i, r.matchPoint < i → i ≤ cappedSteps sampleSolver 6 (-1 / 2) 6 →
          ∃ a, vecGet s.Psi i = some a ∧ vecGet r.Psi i = some (a * c / b)) :=
  ⟨by decide!, by decide!,
    rescale_of_two_le_matchPoint sampleSolver 6 0 (-1 / 2) 6 (by decide!) (by decide!)⟩

/-- Witness for the amended C10, on the sample grid. -/
theorem matchPoint_from_inward_witness :
    2 ≤ cappedSteps sampleSolver 6 (-1 / 2) 6 ∧
    (0 : ℚ) ≤ sampleSolver.function.GetMaxRadius (-1 / 2) ∧
    ∃ s r, inwardResult sampleSolver 6 0 (-1 / 2) 6 = some s ∧
      SolveSchrodingerMatchSolutionCompletely sampleSolver 6 0 (-1 / 2) 6 = some r ∧
      r.matchPoint = s.matchPoint ∧
      ((r.matchPoint = 2 ∧
          ∀ j, 1 ≤ j → j ≤ cappedSteps sampleSolver 6 (-1 / 2) 6 - 2 → continuesAt s.Psi j) ∨
       (1 ≤ r.matchPoint ∧ r.matchPoint ≤ cappedSteps sampleSolver 6 (-1 / 2) 6 - 2 ∧
          breaksAt s.Psi r.matchPoint ∧
          ∀ j, r.matchPoint < j → j ≤ cappedSteps sampleSolver 6 (-1 / 2) 6 - 2 →
            continuesAt s.Psi j)) :=
  ⟨by decide!, by decide!,
    matchPoint_from_inward sampleSolver 6 0 (-1 / 2) 6 (by decide!) (by decide!)⟩

/-! Further properties of `Subshell` and `GetSubshells`. -/

section AufbauMore

/-- C16: `Subshell::operator<` is the lexicographic order on `(m_N, m_L)`; it is
irreflexive and transitive, it does not look at the electron count or the energy, and
of two subshells with different `(m_N, m_L)` exactly one is below the other. -/
theorem Subshell_lt_lexicographic :
    (∀ a b : Subshell, Subshell.lt a b = true ↔
      (a.m_N < b.m_N ∨ (a.m_N = b.m_N ∧ a.m_L < b.m_L))) ∧
    (∀ a : Subshell, Subshell.lt a a = false) ∧
    (∀ a b c : Subshell, Subshell.lt a b = true → Subshell.lt b c = true →
      Subshell.lt a c = true) ∧
    (∀ (a b : Subshell) (c c1 : Int) (e e1 : Rat),
      Subshell.lt { a with m_nrElectrons := c, E := e } { b with m_nrElectrons := c1, E := e1 } =
        Subshell.lt a b) ∧
    (∀ a b : Subshell, (a.m_N, a.m_L) ≠ (b.m_N, b.m_L) →
      (Subshell.lt a b = true ∧ Subshell.lt b a = false) ∨
      (Subshell.lt a b = false ∧ Subshell.lt b a = true)) := by
  refine ⟨?_, ?_, ?_, ?_, ?_⟩
  · intro a b
    simp [Subshell.lt]
  · intro a
    simp [Subshell.lt]
  · intro a b c hab hbc
    simp only [Subshell.lt, decide_eq_true_eq] at *
    omega
  · intro a b c c1 e e1
    rfl
  · intro a b hne
    have hne2 : ¬ (a.m_N = b.m_N ∧ a.m_L = b.m_L) := by
      rintro ⟨h1, h2⟩
      exact hne (by rw [h1, h2])
    simp only [Subshell.lt, decide_eq_true_eq, decide_eq_false_iff_not]
    omega

/-- Witness for C16: `(2, 1)` is below `(3, 0)`, whatever the counts and energies. -/
theorem Subshell_lt_lexicographic_witness :
    ((Subshell.new 2 1 6).m_N, (Subshell.new 2 1 6).m_L) ≠
      ((Subshell.new 3 0 2).m_N, (Subshell.new 3 0 2).m_L) ∧
    ((Subshell.lt (Subshell.new 2 1 6) (Subshell.new 3 0 2) = true ∧
        Subshell.lt (Subshell.new 3 0 2) (Subshell.new 2 1 6) = false) ∨
      (Subshell.lt (Subshell.new 2 1 6) (Subshell.new 3 0 2) = false ∧
        Subshell.lt (Subshell.new 3 0 2) (Subshell.new 2 1 6) = true)) :=
  ⟨by decide, Subshell_lt_lexicographic.2.2.2.2 _ _ (by decide)⟩

/-- The first candidate, `(0, 0)`, receives `min Z 2` electrons. -/
theorem nrElectronsFinal_first (Z : Int) : nrElectronsFinal Z 0 0 0 = min Z 2 := by
  have h1 : transitionAdjust Z 0 0 (baseCapacity 0) = 2 := by
    unfold transitionAdjust baseCapacity
    split_ifs <;> omega
  have h2 : clampRemaining Z 0 2 = min Z 2 := by
    unfold clampRemaining
    split_ifs <;> omega
  have h3 : fAdjust Z 0 0 (min Z 2) = min Z 2 := by
    unfold fAdjust
    split_ifs <;> omega
  unfold nrElectronsFinal
  rw [h1, h2, h3]

/-- For `Z ≥ 1` the result starts with the subshell `(0, 0)` holding `min Z 2`. -/
theorem GetSubshells_head (Z : Int) (hZ : 1 ≤ Z) :
    (GetSubshells Z).head? = some (Subshell.new 0 0 (min Z 2)) := by
  have hpos : 0 < min Z 2 := by omega
  have hstep : ∀ m : Int, 0 < m → nrElectronsFinal Z 0 0 0 = m →
      (innerLoop Z 0 ((0 : Int).toNat + 1) 0
        { levels := [], electronCount := 0, exitLoops := false }).1.levels =
      [Subshell.new 0 0 m] := by
    intro m hm hnr
    simp only [innerLoop, le_refl, sub_self, if_true, hnr, emit_of_pos _ _ _ _ hm]
    split_ifs <;> rfl
  have hinner := hstep (min Z 2) hpos (nrElectronsFinal_first Z)
  obtain ⟨e, he, -, -⟩ := outerLoop_levels Z 9 (0 + 1)
    (innerLoop Z 0 ((0 : Int).toNat + 1) 0
      { levels := [], electronCount := 0, exitLoops := false }).1
  have hunfold : run Z = ((outerLoop Z 9 (0 + 1)
      (innerLoop Z 0 ((0 : Int).toNat + 1) 0
        { levels := [], electronCount := 0, exitLoops := false }).1).1,
      (innerLoop Z 0 ((0 : Int).toNat + 1) 0
        { levels := [], electronCount := 0, exitLoops := false }).2 &&
      (outerLoop Z 9 (0 + 1)
      (innerLoop Z 0 ((0 : Int).toNat + 1) 0
        { levels := [], electronCount := 0, exitLoops := false }).1).2) := rfl
  have hrun : GetSubshells Z = Subshell.new 0 0 (min Z 2) :: e := by
    unfold GetSubshells
    rw [hunfold]
    simp only
    rw [he, hinner]
    rfl
  rw [hrun]
  rfl

/-- C20: the candidate filter keeps `L ≤ N` (not `L < N`): for every integer `Z` every
subshell returned has `0 ≤ L ≤ N` and `N + L ≤ 9`, and subshells with `L = N` are
returned; for every `Z ≥ 1` the first one is `(0, 0)` with `min Z 2` electrons. -/
theorem GetSubshells_candidate_boundary (Z : Int) :
    (∀ x ∈ GetSubshells Z, 0 ≤ x.m_L ∧ x.m_L ≤ x.m_N ∧ x.m_N + x.m_L ≤ 9) ∧
    (1 ≤ Z → (GetSubshells Z).head? = some (Subshell.new 0 0 (min Z 2))) ∧
    (1 ≤ Z → ∃ x ∈ GetSubshells Z, x.m_L = x.m_N) := by
  refine ⟨?_, GetSubshells_head Z, ?_⟩
  · intro x hx
    have hmem : x.nl ∈ (GetSubshells Z).map Subshell.nl := List.mem_map_of_mem _ hx
    have hc := (GetSubshells_sublist Z).1.subset hmem
    obtain ⟨c, hc1, hc2⟩ := List.mem_map.mp hc
    have hb := (mem_candidates_iff x.m_N x.m_L).mp
      ⟨c, hc1, by
        simp only [Subshell.nl, Prod.mk.injEq] at hc2
        exact hc2⟩
    exact hb
  · intro hZ
    have h := GetSubshells_head Z hZ
    refine ⟨Subshell.new 0 0 (min Z 2), ?_, rfl⟩
    cases hl : GetSubshells Z with
    | nil => rw [hl] at h; simp at h
    | cons y ys =>
      rw [hl] at h
      simp only [List.head?_cons, Option.some.injEq] at h
      rw [h]
      exact List.mem_cons_self _ _

/-- Witness for C20: helium, `Z = 2`, starts with the subshell `(0, 0)`, where `L = N`. -/
theorem GetSubshells_candidate_boundary_witness :
    (1 : Int) ≤ 2 ∧ (GetSubshells 2).head? = some (Subshell.new 0 0 (min 2 2)) :=
  ⟨by decide, (GetSubshells_candidate_boundary 2).2.1 (by decide)⟩

end AufbauMore

/-! Further properties of `SolveSchrodingerMatchSolutionCompletely`. -/

section NumerovMore

variable {F : Type} [LinearOrderedField F] [FloorRing F]

/-- C15: when the capped step count `S` satisfies `2 ≤ S ≤ steps`, the call returns and
every entry of the returned vector at an index `i` with `S < i ≤ steps` is `0`; these
entries are `0` after the integration from the far end (state `s`) and after the
integration from the origin (state `t`) as well, so no stage writes above `S`. -/
theorem SolveMatch_tail_zero (self : Numerov F) (startPoint : F) (l : Nat) (E : F)
    (steps : Int) (hS : 2 ≤ cappedSteps self startPoint E steps)
    (hle : cappedSteps self startPoint E steps ≤ steps) :
    ∃ s t r, inwardResult self startPoint l E steps = some s ∧
      outwardPass (matchSolver self startPoint E steps) l E s = some t ∧
      SolveSchrodingerMatchSolutionCompletely self startPoint l E steps = some r ∧
      (r.Psi.length : Int) = steps + 1 ∧
      ∀ i, cappedSteps self startPoint E steps < i → i ≤ steps →
        vecGet s.Psi i = some 0 ∧ vecGet t.Psi i = some 0 ∧ vecGet r.Psi i = some 0 := by
  obtain ⟨s, t, r, atMatch, hs, ht, hr, -, -, -, hlen, -, -, -, -, -, -, -, -, htail⟩ :=
    solve_run self startPoint l E steps hS hle
  obtain ⟨Psi0, hsetup, hl0, hzero⟩ := matchSetup_spec self startPoint E steps (by omega) hle
  obtain ⟨s1, hs1, hls, hsframe, -, -, hchar⟩ := inwardPass_spec
    (matchSolver self startPoint E steps) (cappedStart self startPoint E steps) l E
    (cappedSteps self startPoint E steps) Psi0 hS (by omega)
  have hs1' : inwardResult self startPoint l E steps = some s1 := by
    unfold inwardResult
    simp only [hsetup]
    exact hs1
  rw [hs] at hs1'
  obtain rfl := Option.some.inj hs1'
  have hmS : s.matchPoint ≤ cappedSteps self startPoint E steps := by
    rcases hchar with ⟨h, -⟩ | ⟨-, h, -⟩ <;> omega
  obtain ⟨t1, ht1, -, -, -, -, htframe⟩ := outwardPass_spec
    (matchSolver self startPoint E steps) l E s (by omega) (by omega)
  rw [ht] at ht1
  obtain rfl := Option.some.inj ht1
  refine ⟨s, t, r, hs, ht, hr, hlen, ?_⟩
  intro i hi1 hi2
  have hsi : vecGet s.Psi i = some 0 := by
    rw [hsframe i (Or.inr hi1)]
    exact hzero i (by omega) hi2
  refine ⟨hsi, ?_, htail i hi1 hi2⟩
  rw [htframe i (by omega) (by omega)]
  exact hsi

end NumerovMore

/-- Witness for C15: a call on the sample grid with capped step count `5` and
`steps = 12`. -/
theorem SolveMatch_tail_zero_witness :
    2 ≤ cappedSteps sampleSolver 12 (-30) 12 ∧ cappedSteps sampleSolver 12 (-30) 12 ≤ 12 ∧
    ∃ s t r, inwardResult sampleSolver 12 0 (-30) 12 = some s ∧
      outwardPass (matchSolver sampleSolver 12 (-30) 12) 0 (-30) s = some t ∧
      SolveSchrodingerMatchSolutionCompletely sampleSolver 12 0 (-30) 12 = some r ∧
      (r.Psi.length : Int) = 12 + 1 ∧
      ∀ i, cappedSteps sampleSolver 12 (-30) 12 < i → i ≤ 12 →
        vecGet s.Psi i = some 0 ∧ vecGet t.Psi i = some 0 ∧ vecGet r.Psi i = some 0 :=
  ⟨by decide!, by decide!,
    SolveMatch_tail_zero sampleSolver 12 0 (-30) 12 (by decide!) (by decide!)⟩

/-! Properties of the three solve operations together. -/

section ThreeOperations

variable {F : Type} [LinearOrderedField F] [FloorRing F]

/-- Lines 289-306 never read the fields `h`, `h2`, `h2p12`: two solvers over the same
grid are capped alike. -/
theorem capRange_congr (self self1 : Numerov F) (hfun : self.function = self1.function)
    (startPoint E : F) (steps : Int) :
    capRange self startPoint E steps = capRange self1 startPoint E steps := by
  cases self
  cases self1
  simp only at hfun
  subst hfun
  rfl

theorem capRange_function (self : Numerov F) (startPoint E : F) (steps : Int) :
    (capRange self startPoint E steps).1.function = self.function := by
  unfold capRange
  split_ifs <;> rfl

theorem CountNodes_congr (self self1 : Numerov F) (hfun : self.function = self1.function)
    (isInfinity : F → Bool) (startPoint : F) (l : Nat) (E : F) (steps nodesLimit : Int) :
    SolveSchrodingerCountNodes self isInfinity startPoint l E steps nodesLimit =
      SolveSchrodingerCountNodes self1 isInfinity startPoint l E steps nodesLimit := by
  unfold SolveSchrodingerCountNodes
  rw [capRange_congr self self1 hfun]

theorem SolutionInZero_congr (self self1 : Numerov F) (hfun : self.function = self1.function)
    (startPoint : F) (l : Nat) (E : F) (steps : Nat) :
    SolveSchrodingerSolutionInZero self startPoint l E steps =
      SolveSchrodingerSolutionInZero self1 startPoint l E steps := by
  unfold SolveSchrodingerSolutionInZero
  rw [capRange_congr self self1 hfun]

theorem MatchSolution_congr (self self1 : Numerov F) (hfun : self.function = self1.function)
    (startPoint : F) (l : Nat) (E : F) (steps : Int) :
    SolveSchrodingerMatchSolutionCompletely self startPoint l E steps =
      SolveSchrodingerMatchSolutionCompletely self1 startPoint l E steps := by
  unfold SolveSchrodingerMatchSolutionCompletely matchSetup
  rw [capRange_congr self self1 hfun]

/-- The solver left by `SolveSchrodingerCountNodes` is the one made by lines 153-170. -/
theorem CountNodes_self (self : Numerov F) (isInfinity : F → Bool) (startPoint : F)
    (l : Nat) (E : F) (steps nodesLimit : Int) (r : CountResult F)
    (hr : SolveSchrodingerCountNodes self isInfinity startPoint l E steps nodesLimit = some r) :
    r.self = (capRange self startPoint E steps).1 := by
  unfold SolveSchrodingerCountNodes at hr
  simp only at hr
  split at hr
  · exact absurd hr (by simp)
  · obtain rfl := Option.some.inj hr
    rfl
  · split_ifs at hr <;>
    · obtain rfl := Option.some.inj hr
      rfl

/-- The solver left by `SolveSchrodingerSolutionInZero` is the one made by lines
234-251. -/
theorem SolutionInZero_self (self : Numerov F) (startPoint : F) (l : Nat) (E : F)
    (steps : Nat) (r : ZeroResult F)
    (hr : SolveSchrodingerSolutionInZero self startPoint l E steps = some r) :
    r.self = (capRange self startPoint E (steps : Int)).1 := by
  unfold SolveSchrodingerSolutionInZero at hr
  simp only at hr
  split at hr
  · exact absurd hr (by simp)
  · obtain rfl := Option.some.inj hr
    rfl

/-- The solver left by `SolveSchrodingerMatchSolutionCompletely` is the one made by
lines 289-312. -/
theorem MatchSolution_self (self : Numerov F) (startPoint : F) (l : Nat) (E : F)
    (steps : Int) (r : MatchResult F)
    (hr : SolveSchrodingerMatchSolutionCompletely self startPoint l E steps = some r) :
    r.self = matchSolver self startPoint E steps := by
  unfold SolveSchrodingerMatchSolutionCompletely at hr
  cases hsetup : matchSetup self startPoint E steps with
  | none => rw [hsetup] at hr; simp at hr
  | some p =>
    obtain ⟨self1, startPoint1, steps1, Psi⟩ := p
    have hself1 : self1 = matchSolver self startPoint E steps := by
      unfold matchSetup at hsetup
      simp only at hsetup
      split_ifs at hsetup
      split at hsetup
      · exact absurd hsetup (by simp)
      · simp only [Option.some.injEq, Prod.mk.injEq] at hsetup
        rw [← hsetup.1]
        rfl
    rw [hsetup] at hr
    simp only at hr
    split at hr
    · exact absurd hr (by simp)
    · split at hr
      · exact absurd hr (by simp)
      · split at hr
        · exact absurd hr (by simp)
        · obtain rfl := Option.some.inj hr
          exact hself1

theorem matchSolver_function (self : Numerov F) (startPoint E : F) (steps : Int) :
    (matchSolver self startPoint E steps).function = self.function := by
  unfold matchSolver
  exact capRange_function self startPoint E steps

/-- C12: no state carries between solve calls.  Two solvers over the same grid that
differ only in the fields `h`, `h2`, `h2p12` give the same result for each of the three
operations (the count and exit, the value at the origin, the vector and match index,
and the fields left behind); hence a second call with the same arguments, made on the
solver left by the first, returns the same result. -/
theorem solve_independent_of_scratch (self self1 : Numerov F)
    (hfun : self.function = self1.function) (isInfinity : F → Bool) (startPoint : F)
    (l : Nat) (E : F) (steps nodesLimit : Int) (stepsU : Nat) :
    SolveSchrodingerCountNodes self isInfinity startPoint l E steps nodesLimit =
      SolveSchrodingerCountNodes self1 isInfinity startPoint l E steps nodesLimit ∧
    SolveSchrodingerSolutionInZero self startPoint l E stepsU =
      SolveSchrodingerSolutionInZero self1 startPoint l E stepsU ∧
    SolveSchrodingerMatchSolutionCompletely self startPoint l E steps =
      SolveSchrodingerMatchSolutionCompletely self1 startPoint l E steps ∧
    (∀ r, SolveSchrodingerCountNodes self isInfinity startPoint l E steps nodesLimit = some r →
      SolveSchrodingerCountNodes r.self isInfinity startPoint l E steps nodesLimit = some r) ∧
    (∀ r, SolveSchrodingerSolutionInZero self startPoint l E stepsU = some r →
      SolveSchrodingerSolutionInZero r.self startPoint l E stepsU = some r) ∧
    (∀ r, SolveSchrodingerMatchSolutionCompletely self startPoint l E steps = some r →
      SolveSchrodingerMatchSolutionCompletely r.self startPoint l E steps = some r) := by
  refine ⟨CountNodes_congr self self1 hfun _ _ _ _ _ _, SolutionInZero_congr self self1 hfun _ _ _ _,
    MatchSolution_congr self self1 hfun _ _ _ _, ?_, ?_, ?_⟩
  · intro r hr
    rw [← hr]
    refine CountNodes_congr _ _ ?_ _ _ _ _ _ _
    rw [CountNodes_self _ _ _ _ _ _ _ r hr, capRange_function]
  · intro r hr
    rw [← hr]
    refine SolutionInZero_congr _ _ ?_ _ _ _ _
    rw [SolutionInZero_self _ _ _ _ _ r hr, capRange_function]
  · intro r hr
    rw [← hr]
    refine MatchSolution_congr _ _ ?_ _ _ _ _
    rw [MatchSolution_self _ _ _ _ _ r hr, matchSolver_function]

end ThreeOperations

/-- Witness for C12: the sample solver with two different settings of its fields. -/
theorem solve_independent_of_scratch_witness :
    sampleSolver.function = ({ sampleSolver with h := 5, h2 := 7, h2p12 := 9 } : Numerov ℚ).function ∧
    SolveSchrodingerMatchSolutionCompletely sampleSolver 6 0 (-1 / 2) 6 =
      SolveSchrodingerMatchSolutionCompletely
        ({ sampleSolver with h := 5, h2 := 7, h2p12 := 9 } : Numerov ℚ) 6 0 (-1 / 2) 6 :=
  ⟨rfl, (solve_independent_of_scratch sampleSolver
    ({ sampleSolver with h := 5, h2 := 7, h2p12 := 9 } : Numerov ℚ) rfl (fun _ => false)
    6 0 (-1 / 2) 6 3 6).2.2.1⟩

section CountLoop

variable {F : Type} [LinearOrderedField F]

/-- The loop of lines 189-222 ends.  Entered with a count between `0` and `nodesLimit`,
it either runs to its end or returns at line 204 or 221 with a count in that range, or
returns at line 211 with the count `nodesLimit + 1`. -/
theorem countLoop_spec (self : Numerov F) (isInfinity : F → Bool) (l : Nat) (E : F)
    (nodesLimit : Int) :
    ∀ (fuel : Nat) (i : Int) (s : CountState F), i ≤ (fuel : Int) → 0 ≤ s.nodesCount →
      s.nodesCount ≤ nodesLimit →
      ∃ s1 e, countLoop self isInfinity l E nodesLimit fuel i s = some (s1, e) ∧
        0 ≤ s1.nodesCount ∧
        ((e = some CountExit.limit ∧ s1.nodesCount = nodesLimit + 1) ∨
         ((e = none ∨ e = some CountExit.overflow ∨ e = some CountExit.turningPoint) ∧
           s1.nodesCount ≤ nodesLimit)) := by
  intro fuel
  induction fuel with
  | zero =>
    intro i s hf h0 h1
    have hi : ¬ i > 0 := by push_cast at hf; omega
    exact ⟨s, none, by simp [countLoop, hi], h0, Or.inr ⟨Or.inl rfl, h1⟩⟩
  | succ fuel ih =>
    intro i s hf h0 h1
    by_cases hi : i > 0
    · have hturn : ∀ s2 : CountState F, 0 ≤ s2.nodesCount → s2.nodesCount ≤ nodesLimit →
          ∃ s1 e, turningPointStep self l E i s2
              (countLoop self isInfinity l E nodesLimit fuel (i - 1)) = some (s1, e) ∧
            0 ≤ s1.nodesCount ∧
            ((e = some CountExit.limit ∧ s1.nodesCount = nodesLimit + 1) ∨
             ((e = none ∨ e = some CountExit.overflow ∨ e = some CountExit.turningPoint) ∧
               s1.nodesCount ≤ nodesLimit)) := by
        intro s2 h20 h21
        unfold turningPointStep
        simp only
        split_ifs with ha hb
        · exact ih (i - 1) _ (by push_cast at hf; omega) h20 h21
        · exact ⟨s2, _, rfl, h20, Or.inr ⟨Or.inr (Or.inr rfl), h21⟩⟩
        · exact ih (i - 1) _ (by push_cast at hf; omega) h20 h21
      unfold countLoop
      simp only [hi, if_true]
      split_ifs with hinf hsgn hlim
      · exact ⟨_, _, rfl, h0, Or.inr ⟨Or.inr (Or.inl rfl), h1⟩⟩
      · refine ⟨_, _, rfl, by simp only; omega, Or.inl ⟨rfl, ?_⟩⟩
        simp only at hlim ⊢
        omega
      · exact hturn _ (by simp only; omega) (by simp only at hlim ⊢; omega)
      · exact hturn _ h0 h1
    · exact ⟨s, none, by simp [countLoop, hi], h0, Or.inr ⟨Or.inl rfl, h1⟩⟩

end CountLoop

section CountNodes

variable {F : Type} [LinearOrderedField F] [FloorRing F]

/-- C18: for `nodesLimit ≥ 0`, whatever the grid, the energy and the values found
infinite, `SolveSchrodingerCountNodes` returns with `0 ≤ nodesCount ≤ nodesLimit + 1`,
and `nodesCount = nodesLimit + 1` only when it returned at line 211, where the count
exceeded the limit, or when the final test of lines 224-229 added the last node. -/
theorem CountNodes_bounds (self : Numerov F) (isInfinity : F → Bool) (startPoint : F)
    (l : Nat) (E : F) (steps nodesLimit : Int) (hlimit : 0 ≤ nodesLimit) :
    ∃ r, SolveSchrodingerCountNodes self isInfinity startPoint l E steps nodesLimit = some r ∧
      0 ≤ r.nodesCount ∧ r.nodesCount ≤ nodesLimit + 1 ∧
      (r.nodesCount = nodesLimit + 1 →
        r.exit = CountExit.limit ∨ r.exit = CountExit.finished true) := by
  unfold SolveSchrodingerCountNodes
  simp only
  obtain ⟨s1, e, hloop, h0, hcase⟩ := countLoop_spec (capRange self startPoint E steps).1
    isInfinity l E nodesLimit ((capRange self startPoint E steps).2.2 - 2).toNat
    ((capRange self startPoint E steps).2.2 - 2)
    { solution := (capRange self startPoint E steps).1.function.GetBoundaryValueFar
        ((capRange self startPoint E steps).2.1 - (capRange self startPoint E steps).1.h) E
      prevSol := (capRange self startPoint E steps).1.function.GetBoundaryValueFar
        (capRange self startPoint E steps).2.1 E
      funcVal := (capRange self startPoint E steps).1.function.apply l E
        ((capRange self startPoint E steps).2.1 - (capRange self startPoint E steps).1.h)
        ((capRange self startPoint E steps).2.2 - 1)
      wprev := (1 - (capRange self startPoint E steps).1.h2p12 *
          (capRange self startPoint E steps).1.function.apply l E
            (capRange self startPoint E steps).2.1 (capRange self startPoint E steps).2.2) *
        (capRange self startPoint E steps).1.function.GetBoundaryValueFar
          (capRange self startPoint E steps).2.1 E
      w := (1 - (capRange self startPoint E steps).1.h2p12 *
          (capRange self startPoint E steps).1.function.apply l E
            ((capRange self startPoint E steps).2.1 - (capRange self startPoint E steps).1.h)
            ((capRange self startPoint E steps).2.2 - 1)) *
        (capRange self startPoint E steps).1.function.GetBoundaryValueFar
          ((capRange self startPoint E steps).2.1 - (capRange self startPoint E steps).1.h) E
      oldSgn := decide ((capRange self startPoint E steps).1.function.GetBoundaryValueFar
        ((capRange self startPoint E steps).2.1 - (capRange self startPoint E steps).1.h) E > 0)
      nodesCount := 0
      firstClassicalReturnPoint := false }
    (by omega) (le_refl _) hlimit
  rw [hloop]
  rcases hcase with ⟨rfl, hc⟩ | ⟨rfl | rfl | rfl, hc⟩
  · exact ⟨_, rfl, h0, by simp only; omega, fun _ => Or.inl rfl⟩
  · simp only [hc, if_true]
    split_ifs
    · exact ⟨_, rfl, by simp only; omega, by simp only; omega, fun _ => Or.inr rfl⟩
    · exact ⟨_, rfl, h0, by simp only; omega, fun h => by simp only at h; omega⟩
  · exact ⟨_, rfl, h0, by simp only; omega, fun h => by simp only at h; omega⟩
  · exact ⟨_, rfl, h0, by simp only; omega, fun h => by simp only at h; omega⟩

end CountNodes

/-- Witness for C18: a call on the sample grid with `nodesLimit = 1` that returns at
line 211 with the count `2`. -/
theorem CountNodes_bounds_witness :
    (0 : Int) ≤ 1 ∧
    ∃ r, SolveSchrodingerCountNodes sampleSolver (fun _ => false) 12 0 (-1 / 2) 12 1 = some r ∧
      0 ≤ r.nodesCount ∧ r.nodesCount ≤ 1 + 1 ∧
      (r.nodesCount = 1 + 1 → r.exit = CountExit.limit ∨ r.exit = CountExit.finished true) :=
  ⟨by decide, CountNodes_bounds sampleSolver (fun _ => false) 12 0 (-1 / 2) 12 1 (by decide)⟩

section StepSize

variable {F : Type} [LinearOrderedField F] [FloorRing F]

/-- What the three operations integrate with when `startPoint ≠ steps`: all take the
range capped at the grid's maximum radius and the step count re-derived from it with the
step `startPoint / steps`; `SolveSchrodingerCountNodes` and
`SolveSchrodingerSolutionInZero` keep that step (lines 164-166 and 245-247), while
`SolveSchrodingerMatchSolutionCompletely` replaces it by the capped range over the
capped step count (lines 310-312). -/
theorem solve_parameters (self : Numerov F) (startPoint E : F) (steps : Int)
    (hne : startPoint ≠ (steps : F)) :
    cappedStart self startPoint E steps = min startPoint (self.function.GetMaxRadius E) ∧
    cappedSteps self startPoint E steps =
      truncToInt (cappedStart self startPoint E steps / (startPoint / (steps : F))) ∧
    (capRange self startPoint E steps).1.h = startPoint / (steps : F) ∧
    (capRange self startPoint E steps).1.h2 = startPoint / (steps : F) * (startPoint / (steps : F)) ∧
    (capRange self startPoint E steps).1.h2p12 =
      startPoint / (steps : F) * (startPoint / (steps : F)) / 12 ∧
    (matchSolver self startPoint E steps).h =
      cappedStart self startPoint E steps / (cappedSteps self startPoint E steps : F) ∧
    (matchSolver self startPoint E steps).h2 =
      (matchSolver self startPoint E steps).h * (matchSolver self startPoint E steps).h ∧
    (matchSolver self startPoint E steps).h2p12 =
      (matchSolver self startPoint E steps).h * (matchSolver self startPoint E steps).h / 12 := by
  unfold cappedStart cappedSteps matchSolver cappedStart cappedSteps capRange
  simp [hne]

end StepSize

/-- C11 fails on the code: on the sample grid, for the arguments `startPoint = 20`,
`l = 0`, `E = -323/30`, `steps = 10` (so `startPoint ≠ steps`), the three operations
share the capped range `15` and the step count `7`, but `SolveSchrodingerCountNodes`
and `SolveSchrodingerSolutionInZero` integrate with the step `20 / 10 = 2`, not
recomputed after the cap, and only `SolveSchrodingerMatchSolutionCompletely` with
`15 / 7`. -/
theorem step_recomputed_in_match_only :
    (20 : ℚ) ≠ ((10 : Int) : ℚ) ∧
    cappedStart sampleSolver 20 (-323 / 30) 10 = 15 ∧
    cappedSteps sampleSolver 20 (-323 / 30) 10 = 7 ∧
    (SolveSchrodingerCountNodes sampleSolver (fun _ => false) 20 0 (-323 / 30) 10 5).map
      (fun r => (r.self.h, r.self.h2, r.self.h2p12)) = some (2, 4, 1 / 3) ∧
    (SolveSchrodingerSolutionInZero sampleSolver 20 0 (-323 / 30) 10).map
      (fun r => (r.self.h, r.self.h2, r.self.h2p12)) = some (2, 4, 1 / 3) ∧
    (SolveSchrodingerMatchSolutionCompletely sampleSolver 20 0 (-323 / 30) 10).map
      (fun r => (r.self.h, r.self.h2, r.self.h2p12)) = some (15 / 7, 225 / 49, 75 / 196) := by
  refine ⟨?_, ?_, ?_, ?_, ?_, ?_⟩ <;> decide!

section OutwardValues

variable {F : Type} [LinearOrderedField F]

theorem specOutwardW_succ_succ (self : Numerov F) (l : Nat) (E : F) (i : Nat) :
    specOutwardW self l E (i + 2) =
      2 * specOutwardW self l E (i + 1) - specOutwardW self l E i +
        self.h ^ 2 * specOutwardU self l E (i + 1) * odeCoefficient self l E (i + 1) := by
  rw [specOutwardW, specOutwardU]

/-- One step of the recurrence as lines 361-369 and 372-375 compute it, from the
variables described by `outwardInvariant`. -/
theorem outward_step (self : Numerov F) (l : Nat) (E : F) (hh2 : self.h2 = self.h ^ 2)
    (hh12 : self.h2p12 = self.h ^ 2 / 12) (k : Nat) (s : MatchState F)
    (hinv : outwardInvariant self l E (k + 2) s) :
    2 * s.w - s.wprev + self.h2 * s.solution * s.funcVal = specOutwardW self l E (k + 2) ∧
    self.function.apply l E (self.h * (((k + 2 : Nat) : Int) : F)) ((k + 2 : Nat) : Int) =
      odeCoefficient self l E (k + 2) ∧
    self.getU (2 * s.w - s.wprev + self.h2 * s.solution * s.funcVal)
      (self.function.apply l E (self.h * (((k + 2 : Nat) : Int) : F)) ((k + 2 : Nat) : Int)) =
      specOutwardU self l E (k + 2) := by
  obtain ⟨hw, hwp, hsol, hf, -⟩ := hinv
  simp only [Nat.add_sub_cancel, show k + 2 - 1 = k + 1 by omega] at hw hwp hsol hf
  have h1 : 2 * s.w - s.wprev + self.h2 * s.solution * s.funcVal =
      specOutwardW self l E (k + 2) := by
    rw [specOutwardW_succ_succ, hw, hwp, hsol, hf, hh2]
  have h2 : self.function.apply l E (self.h * (((k + 2 : Nat) : Int) : F)) ((k + 2 : Nat) : Int) =
      odeCoefficient self l E (k + 2) := by
    unfold odeCoefficient
    rw [Int.cast_natCast]
  refine ⟨h1, h2, ?_⟩
  rw [h1, h2]
  unfold getU specOutwardU
  rw [if_neg (by omega), hh12]
  congr 1
  ring

/-- The loop of lines 359-370 keeps `outwardInvariant`: entered for the index `n ≥ 2`
it ends with the variables that belong to the index `max n matchPoint`. -/
theorem outwardLoop_values (self : Numerov F) (l : Nat) (E : F) (hh2 : self.h2 = self.h ^ 2)
    (hh12 : self.h2p12 = self.h ^ 2 / 12) :
    ∀ (fuel n : Nat) (s : MatchState F), 2 ≤ n → s.matchPoint - (n : Int) ≤ (fuel : Int) →
      s.matchPoint ≤ (s.Psi.length : Int) → outwardInvariant self l E n s →
      ∃ t k, outwardLoop self l E fuel (n : Int) s = some t ∧
        ((k : Nat) : Int) = max (n : Int) s.matchPoint ∧ outwardInvariant self l E k t := by
  intro fuel
  induction fuel with
  | zero =>
    intro n s _ hf _ hinv
    have hi : ¬ (n : Int) < s.matchPoint := by push_cast at hf; omega
    exact ⟨s, n, by simp [outwardLoop, hi], by omega, hinv⟩
  | succ fuel ih =>
    intro n s hn hf hlen hinv
    by_cases hi : (n : Int) < s.matchPoint
    · obtain ⟨k, rfl⟩ : ∃ k, n = k + 2 := ⟨n - 2, by omega⟩
      obtain ⟨hW, hfv, hU⟩ := outward_step self l E hh2 hh12 k s hinv
      obtain ⟨Psi1, hP1⟩ : ∃ Psi1, vecSet s.Psi ((k + 2 : Nat) : Int) (self.getU
          (2 * s.w - s.wprev + self.h2 * s.solution * s.funcVal)
          (self.function.apply l E (self.h * (((k + 2 : Nat) : Int) : F)) ((k + 2 : Nat) : Int))) =
            some Psi1 :=
        ⟨_, vecSet_of_lt s.Psi _ (by omega) (by omega)⟩
      have hl1 := vecSet_length hP1
      have hinv1 : outwardInvariant self l E (k + 2 + 1)
          { Psi := Psi1
            solution := self.getU (2 * s.w - s.wprev + self.h2 * s.solution * s.funcVal)
              (self.function.apply l E (self.h * (((k + 2 : Nat) : Int) : F))
                ((k + 2 : Nat) : Int))
            funcVal := self.function.apply l E (self.h * (((k + 2 : Nat) : Int) : F))
              ((k + 2 : Nat) : Int)
            wprev := s.w
            w := 2 * s.w - s.wprev + self.h2 * s.solution * s.funcVal
            matchPoint := s.matchPoint } := by
        refine ⟨hW, ?_, hU, hfv, ?_⟩
        · exact hinv.1
        · intro j hj1 hj2
          rcases Nat.lt_succ_iff_lt_or_eq.mp hj2 with hlt | rfl
          · rw [vecGet_vecSet_ne hP1 (by omega)]
            exact hinv.2.2.2.2 j hj1 hlt
          · rw [vecGet_vecSet_self hP1, hU]
      obtain ⟨t, k1, ht, hk1, hinvt⟩ := ih (k + 2 + 1) _ (by omega)
        (by push_cast at hf ⊢; omega) (by simp only; omega) hinv1
      refine ⟨t, k1, ?_, ?_, hinvt⟩
      · simp only [outwardLoop, hi, if_true, hP1]
        exact_mod_cast ht
      · simp only at hk1
        push_cast at hk1 hi ⊢
        omega
    · exact ⟨s, n, by simp [outwardLoop, hi], by omega, hinv⟩

/-- Lines 350-370 leave the variables that belong to the index `max 2 matchPoint`. -/
theorem outwardPass_values (self : Numerov F) (l : Nat) (E : F) (hh2 : self.h2 = self.h ^ 2)
    (hh12 : self.h2p12 = self.h ^ 2 / 12) (s : MatchState F)
    (hlen : 2 ≤ (s.Psi.length : Int)) (hm : s.matchPoint ≤ (s.Psi.length : Int)) :
    ∃ t k, outwardPass self l E s = some t ∧ ((k : Nat) : Int) = max 2 s.matchPoint ∧
      outwardInvariant self l E k t := by
  obtain ⟨Psi1, hP1⟩ : ∃ Psi1, vecSet s.Psi 0 (0 : F) = some Psi1 :=
    ⟨_, vecSet_of_lt s.Psi _ (by omega) (by omega)⟩
  have hl1 := vecSet_length hP1
  obtain ⟨Psi2, hP2⟩ : ∃ Psi2, vecSet Psi1 1
      (self.function.GetBoundaryValueZero (0 + self.h) (l : Int)) = some Psi2 :=
    ⟨_, vecSet_of_lt Psi1 _ (by omega) (by omega)⟩
  have hl2 := vecSet_length hP2
  have hinv0 : outwardInvariant self l E 2
      { Psi := Psi2
        solution := self.function.GetBoundaryValueZero (0 + self.h) (l : Int)
        funcVal := self.function.apply l E (0 + self.h) 1
        wprev := 0
        w := (1 - self.h2p12 * self.function.apply l E (0 + self.h) 1) *
          self.function.GetBoundaryValueZero (0 + self.h) (l : Int)
        matchPoint := s.matchPoint } := by
    refine ⟨?_, rfl, ?_, ?_, ?_⟩
    · simp only [specOutwardW, odeCoefficient, zero_add, Nat.cast_one, mul_one, hh12,
        Int.cast_one]
      congr 2
      ring
    · simp [specOutwardU]
    · simp [odeCoefficient]
    · intro j hj1 hj2
      obtain rfl : j = 1 := by omega
      simp only [Nat.cast_one]
      rw [vecGet_vecSet_self hP2]
      simp [specOutwardU]
  obtain ⟨t, k, ht, hk, hinvt⟩ := outwardLoop_values self l E hh2 hh12
    (s.matchPoint - 2).toNat 2 _ (le_refl _) (by simp only; push_cast; omega)
    (by simp only; omega) hinv0
  refine ⟨t, k, ?_, by simpa using hk, hinvt⟩
  unfold outwardPass
  simp only [hP1, hP2]
  exact_mod_cast ht

end OutwardValues

section OutwardMatch

variable {F : Type} [LinearOrderedField F] [FloorRing F]

/-- The part of C17 that holds: when the match index `m` is at least `2`, the returned
entries at the indices `1 .. m` are the values `u[i]` of the outward Numerov solution
for the step recomputed after the cap. -/
theorem outward_values_of_two_le_matchPoint (self : Numerov F) (startPoint : F) (l : Nat)
    (E : F) (steps : Int) (hS : 2 ≤ cappedSteps self startPoint E steps)
    (hle : cappedSteps self startPoint E steps ≤ steps) :
    ∃ r, SolveSchrodingerMatchSolutionCompletely self startPoint l E steps = some r ∧
      (2 ≤ r.matchPoint → ∀ i : Nat, 1 ≤ i → (i : Int) ≤ r.matchPoint →
        vecGet r.Psi (i : Int) =
          some (specOutwardU (matchSolver self startPoint E steps) l E i)) := by
  obtain ⟨s, t, r, atMatch, hs, ht, hr, hm, hmt, -, hlen, hchar, -, -, -, -, hjm, hlow, -, -⟩ :=
    solve_run self startPoint l E steps hS hle
  obtain ⟨Psi0, hsetup, hl0, -⟩ := matchSetup_spec self startPoint E steps (by omega) hle
  obtain ⟨s1, hs1, hls, -⟩ := inwardPass_spec
    (matchSolver self startPoint E steps) (cappedStart self startPoint E steps) l E
    (cappedSteps self startPoint E steps) Psi0 hS (by omega)
  have hs1' : inwardResult self startPoint l E steps = some s1 := by
    unfold inwardResult
    simp only [hsetup]
    exact hs1
  rw [hs] at hs1'
  obtain rfl := Option.some.inj hs1'
  have hmS : s.matchPoint ≤ cappedSteps self startPoint E steps := by
    rcases hchar with ⟨h, -⟩ | ⟨-, h, -⟩ <;> omega
  have hh2 : (matchSolver self startPoint E steps).h2 =
      (matchSolver self startPoint E steps).h ^ 2 := by
    rw [sq]; rfl
  have hh12 : (matchSolver self startPoint E steps).h2p12 =
      (matchSolver self startPoint E steps).h ^ 2 / 12 := by
    rw [sq]; rfl
  obtain ⟨t1, k, ht1, hk, hinv⟩ := outwardPass_values (matchSolver self startPoint E steps)
    l E hh2 hh12 s (by omega) (by omega)
  rw [ht] at ht1
  obtain rfl := Option.some.inj ht1
  refine ⟨r, hr, ?_⟩
  intro h2 i hi1 hi2
  rw [hm] at h2 hi2
  have hkm : ((k : Nat) : Int) = s.matchPoint := by omega
  rcases lt_or_eq_of_le hi2 with hlt | heq
  · rw [hlow (i : Int) (by omega) hlt]
    exact hinv.2.2.2.2 i hi1 (by omega)
  · obtain ⟨k2, rfl⟩ : ∃ k2, k = k2 + 2 := ⟨k - 2, by omega⟩
    have hik : i = k2 + 2 := by omega
    subst hik
    obtain ⟨-, -, hU⟩ := outward_step (matchSolver self startPoint E steps) l E hh2 hh12 k2 t hinv
    rw [heq, hjm]
    unfold matchValue
    simp only [hmt, ← hkm]
    rw [hU]

end OutwardMatch

/-- Witness for the part of C17 that holds, on the sample grid. -/
theorem outward_values_of_two_le_matchPoint_witness :
    2 ≤ cappedSteps sampleSolver 6 (-1 / 2) 6 ∧ cappedSteps sampleSolver 6 (-1 / 2) 6 ≤ 6 ∧
    ∃ r, SolveSchrodingerMatchSolutionCompletely sampleSolver 6 0 (-1 / 2) 6 = some r ∧
      (2 ≤ r.matchPoint → ∀ i : Nat, 1 ≤ i → (i : Int) ≤ r.matchPoint →
        vecGet r.Psi (i : Int) =
          some (specOutwardU (matchSolver sampleSolver 6 (-1 / 2) 6) 0 (-1 / 2) i)) :=
  ⟨by decide!, by decide!,
    outward_values_of_two_le_matchPoint sampleSolver 6 0 (-1 / 2) 6 (by decide!) (by decide!)⟩

/-- C17 fails when the match index is `1`: on the sample grid, for the call with
`startPoint = 3`, `l = 0`, `E = -1/2`, `steps = 3`, the capped step count is `3`, the
match index is `1` and the returned entry at index `1` is `14/13`, while the outward
Numerov solution has `u[1] = GetBoundaryValueZero(h, l) = 1`; the entry returned is
`w[2] / (1 - h^2 f[1] / 12)`. -/
theorem outward_value_at_matchPoint_one :
    cappedSteps sampleSolver 3 (-1 / 2) 3 = 3 ∧
    (SolveSchrodingerMatchSolutionCompletely sampleSolver 3 0 (-1 / 2) 3).map
      (fun r => (r.matchPoint, vecGet r.Psi 1)) = some (1, some (14 / 13)) ∧
    specOutwardU (matchSolver sampleSolver 3 (-1 / 2) 3) 0 (-1 / 2) 1 = 1 ∧
    sampleGrid.GetBoundaryValueZero (matchSolver sampleSolver 3 (-1 / 2) 3).h 0 = 1 ∧
    specOutwardW (matchSolver sampleSolver 3 (-1 / 2) 3) 0 (-1 / 2) 2 /
      (1 - (matchSolver sampleSolver 3 (-1 / 2) 3).h ^ 2 *
        odeCoefficient (matchSolver sampleSolver 3 (-1 / 2) 3) 0 (-1 / 2) 1 / 12) = 14 / 13 := by
  refine ⟨?_, ?_, ?_, ?_, ?_⟩ <;> decide!

/-! Properties of the exponential grid. -/

section ExponentialGrid

open NumerovFunctionNonUniformGrid

theorem exp_index_gt_one {delta : ℝ} (hdelta : 0 < delta) {n : Int} (hn : 0 < n) :
    1 < Real.exp ((n : ℝ) * delta) := by
  rw [Real.one_lt_exp_iff]
  have : (0 : ℝ) < (n : ℝ) := by exact_mod_cast hn
  positivity

/-- C13: for a grid constructed with `Rmax > 0`, `delta > 0` and `numPoints ≥ 2`,
`GetPosition(i) = Rp * (exp(i * delta) - 1)` with
`Rp = Rmax / (exp((numPoints - 1) * delta) - 1)`; it is `0` at index `0`, strictly
increasing in the index, and `Rmax` at index `numPoints - 1`. -/
theorem GetPosition_strictMono (pot : Potential) (delta Rmax : ℝ) (numPoints : Int)
    (hRmax : 0 < Rmax) (hdelta : 0 < delta) (hn : 2 ≤ numPoints) :
    (new pot delta Rmax numPoints).Rp =
      Rmax / (Real.exp (((numPoints - 1 : Int) : ℝ) * delta) - 1) ∧
    (∀ i : Int, (new pot delta Rmax numPoints).GetPosition i =
      (new pot delta Rmax numPoints).Rp * (Real.exp ((i : ℝ) * delta) - 1)) ∧
    (new pot delta Rmax numPoints).GetPosition 0 = 0 ∧
    (∀ i j : Int, i < j →
      (new pot delta Rmax numPoints).GetPosition i <
        (new pot delta Rmax numPoints).GetPosition j) ∧
    (new pot delta Rmax numPoints).GetPosition (numPoints - 1) = Rmax := by
  have hden : 0 < Real.exp (((numPoints - 1 : Int) : ℝ) * delta) - 1 := by
    have := exp_index_gt_one hdelta (n := numPoints - 1) (by omega)
    linarith
  have hRp : 0 < Rmax / (Real.exp (((numPoints - 1 : Int) : ℝ) * delta) - 1) :=
    div_pos hRmax hden
  refine ⟨rfl, fun i => rfl, ?_, ?_, ?_⟩
  · simp [GetPosition]
  · intro i j hij
    simp only [GetPosition, new]
    have hlt : (i : ℝ) * delta < (j : ℝ) * delta := by
      have : (i : ℝ) < (j : ℝ) := by exact_mod_cast hij
      exact mul_lt_mul_of_pos_right this hdelta
    have := Real.exp_lt_exp.mpr hlt
    exact mul_lt_mul_of_pos_left (by linarith) hRp
  · simp only [GetPosition, new]
    exact div_mul_cancel₀ Rmax (ne_of_gt hden)

/-- Witness for C13: the grid with `delta = 1`, `Rmax = 10` and `5` points. -/
theorem GetPosition_strictMono_witness :
    (0 : ℝ) < 10 ∧ (0 : ℝ) < 1 ∧ (2 : Int) ≤ 5 ∧
    (new { m_potentialValues := [] } 1 10 5).GetPosition 0 = 0 ∧
    (new { m_potentialValues := [] } 1 10 5).GetPosition (5 - 1) = 10 :=
  ⟨by norm_num, by norm_num, by decide,
    (GetPosition_strictMono { m_potentialValues := [] } 1 10 5 (by norm_num) (by norm_num)
      (by decide)).2.2.1,
    (GetPosition_strictMono { m_potentialValues := [] } 1 10 5 (by norm_num) (by norm_num)
      (by decide)).2.2.2.2⟩

/-- C14 fails as stated: on the grid with `Rp = 1` and `delta = 1`, at the index `1`
and `l = 0`, `GetBoundaryValueZero(1, 0)` is `(e - 1) * exp(-1/2)`, which is not the
uniform-grid value `r_1 ^ (0 + 1) = e - 1`. -/
theorem GetBoundaryValueZero_not_uniform :
    unitGrid.GetBoundaryValueZero ((1 : Int) : ℝ) 0 ≠ (unitGrid.GetPosition 1) ^ ((0 : Int) + 1) ∧
    unitGrid.GetBoundaryValueZero ((1 : Int) : ℝ) 0 ≠
      NumerovFunctionRegularGrid.GetBoundaryValueZero (unitGrid.GetPosition 1) 0 := by
  have hval : unitGrid.GetBoundaryValueZero ((1 : Int) : ℝ) 0 =
      (Real.exp 1 - 1) * Real.exp (-(1 / 2)) := by
    simp only [GetBoundaryValueZero, truncToInt_intCast, GetPosition, unitGrid]
    norm_num
  have hpos : unitGrid.GetPosition 1 ^ ((0 : Int) + 1) = Real.exp 1 - 1 := by
    simp [GetPosition, unitGrid]
  have he : 0 < Real.exp 1 - 1 := by
    have := Real.one_lt_exp_iff.mpr (show (0 : ℝ) < 1 by norm_num)
    linarith
  have hlt : Real.exp (-(1 / 2)) < 1 := by
    rw [Real.exp_lt_one_iff]
    norm_num
  have hne : (Real.exp 1 - 1) * Real.exp (-(1 / 2)) ≠ Real.exp 1 - 1 := by
    have : (Real.exp 1 - 1) * Real.exp (-(1 / 2)) < (Real.exp 1 - 1) * 1 :=
      mul_lt_mul_of_pos_left hlt he
    linarith
  refine ⟨?_, ?_⟩
  · rw [hval, hpos]; exact hne
  · unfold NumerovFunctionRegularGrid.GetBoundaryValueZero
    rw [hval, hpos]; exact hne

/-- C14, amended: for every integer index `i` (so for every `i ≥ 0`), every `l` and
every `E`, `GetBoundaryValueFar(i, E)` is the uniform-grid formula `exp(-r_i * sqrt(2|E|))` at the
true position `r_i = Rp * (exp(i * delta) - 1)`, and `GetBoundaryValueZero(i, l)` is the
uniform-grid formula `r_i ^ (l + 1)` times `exp(-i * delta / 2)`. -/
theorem boundary_values_at_true_position (g : NumerovFunctionNonUniformGrid) (i : Int)
    (l : Int) (E : ℝ) :
    g.GetPosition i = g.Rp * (Real.exp ((i : ℝ) * g.m_delta) - 1) ∧
    g.GetBoundaryValueFar (i : ℝ) E = Real.exp (-g.GetPosition i * Real.sqrt (2 * |E|)) ∧
    g.GetBoundaryValueFar (i : ℝ) E =
      NumerovFunctionRegularGrid.GetBoundaryValueFar (g.GetPosition i) E ∧
    g.GetBoundaryValueZero (i : ℝ) l =
      g.GetPosition i ^ (l + 1) * Real.exp (-(i : ℝ) * g.m_delta / 2) ∧
    g.GetBoundaryValueZero (i : ℝ) l =
      NumerovFunctionRegularGrid.GetBoundaryValueZero (g.GetPosition i) l *
        Real.exp (-(i : ℝ) * g.m_delta / 2) := by
  have hz : g.GetBoundaryValueZero (i : ℝ) l =
      g.GetPosition i ^ (l + 1) * Real.exp (-(i : ℝ) * g.m_delta / 2) := by
    simp only [GetBoundaryValueZero, truncToInt_intCast]
    congr 2
    norm_num
    ring_nf
  refine ⟨rfl, ?_, ?_, hz, hz⟩
  · simp only [GetBoundaryValueFar, truncToInt_intCast]
  · simp only [GetBoundaryValueFar, truncToInt_intCast,
      NumerovFunctionRegularGrid.GetBoundaryValueFar]

/-- C19: for a grid with `Rp > 0` and `delta > 0` and every `E ≠ 0`, the index
`k = GetMaxRadiusIndex(E)` is not negative and is the largest index whose position does
not exceed the cutoff radius `GetMaxRadius(E) = 15 / sqrt(2|E|)`:
`GetPosition(k) ≤ GetMaxRadius(E) < GetPosition(k + 1)`. -/
theorem GetMaxRadiusIndex_inverts (g : NumerovFunctionNonUniformGrid) (E : ℝ)
    (hRp : 0 < g.Rp) (hdelta : 0 < g.m_delta) (hE : E ≠ 0) :
    GetMaxRadius E = 15 / Real.sqrt (2 * |E|) ∧
    0 ≤ g.GetMaxRadiusIndex E ∧
    g.GetPosition (g.GetMaxRadiusIndex E) ≤ GetMaxRadius E ∧
    GetMaxRadius E < g.GetPosition (g.GetMaxRadiusIndex E + 1) := by
  have hmr : 0 < GetMaxRadius E := by
    unfold GetMaxRadius
    have : 0 < 2 * |E| := by positivity
    exact div_pos (by norm_num) (Real.sqrt_pos.mpr this)
  have hy : 1 < GetMaxRadius E / g.Rp + 1 := by
    have := div_pos hmr hRp
    linarith
  have hx : 0 < Real.log (GetMaxRadius E / g.Rp + 1) / g.m_delta :=
    div_pos (Real.log_pos hy) hdelta
  have hk : g.GetMaxRadiusIndex E = ⌊Real.log (GetMaxRadius E / g.Rp + 1) / g.m_delta⌋ := by
    simp only [GetMaxRadiusIndex, truncToInt, if_pos (le_of_lt hx)]
  have hexp : Real.exp (Real.log (GetMaxRadius E / g.Rp + 1) / g.m_delta * g.m_delta) =
      GetMaxRadius E / g.Rp + 1 := by
    rw [div_mul_cancel₀ _ (ne_of_gt hdelta), Real.exp_log (by linarith)]
  have hback : g.Rp * (GetMaxRadius E / g.Rp + 1 - 1) = GetMaxRadius E := by
    field_simp
  refine ⟨rfl, ?_, ?_, ?_⟩
  · rw [hk]
    exact Int.floor_nonneg.mpr (le_of_lt hx)
  · rw [hk]
    simp only [GetPosition]
    have hle : ((⌊Real.log (GetMaxRadius E / g.Rp + 1) / g.m_delta⌋ : Int) : ℝ) * g.m_delta ≤
        Real.log (GetMaxRadius E / g.Rp + 1) / g.m_delta * g.m_delta :=
      mul_le_mul_of_nonneg_right (Int.floor_le _) (le_of_lt hdelta)
    have := Real.exp_le_exp.mpr hle
    rw [hexp] at this
    calc g.Rp * (Real.exp (((⌊Real.log (GetMaxRadius E / g.Rp + 1) / g.m_delta⌋ : Int) : ℝ) *
            g.m_delta) - 1)
        ≤ g.Rp * (GetMaxRadius E / g.Rp + 1 - 1) :=
          mul_le_mul_of_nonneg_left (by linarith) (le_of_lt hRp)
      _ = GetMaxRadius E := hback
  · rw [hk]
    simp only [GetPosition]
    have hlt : Real.log (GetMaxRadius E / g.Rp + 1) / g.m_delta * g.m_delta <
        ((⌊Real.log (GetMaxRadius E / g.Rp + 1) / g.m_delta⌋ + 1 : Int) : ℝ) * g.m_delta := by
      refine mul_lt_mul_of_pos_right ?_ hdelta
      push_cast
      exact Int.lt_floor_add_one _
    have := Real.exp_lt_exp.mpr hlt
    rw [hexp] at this
    calc GetMaxRadius E = g.Rp * (GetMaxRadius E / g.Rp + 1 - 1) := hback.symm
      _ < g.Rp * (Real.exp (((⌊Real.log (GetMaxRadius E / g.Rp + 1) / g.m_delta⌋ + 1 : Int) : ℝ) *
            g.m_delta) - 1) :=
          mul_lt_mul_of_pos_left (by linarith) hRp

/-- Witness for C19: the grid with `Rp = 1`, `delta = 1` and the energy `-1/2`. -/
theorem GetMaxRadiusIndex_inverts_witness :
    0 < unitGrid.Rp ∧ 0 < unitGrid.m_delta ∧ (-1 / 2 : ℝ) ≠ 0 ∧
    0 ≤ unitGrid.GetMaxRadiusIndex (-1 / 2) ∧
    unitGrid.GetPosition (unitGrid.GetMaxRadiusIndex (-1 / 2)) ≤ GetMaxRadius (-1 / 2) ∧
    GetMaxRadius (-1 / 2) < unitGrid.GetPosition (unitGrid.GetMaxRadiusIndex (-1 / 2) + 1) :=
  ⟨by simp [unitGrid], by simp [unitGrid], by norm_num,
    (GetMaxRadiusIndex_inverts unitGrid (-1 / 2) (by simp [unitGrid]) (by simp [unitGrid])
      (by norm_num)).2⟩

end ExponentialGrid
